import Mathlib

/-!
# Verification of the email-relay lead-routing pipeline

A shallow embedding of the core of the email-relay repository:
the text normalizer and field extractors (`src/lib/parser/validators.ts`),
the recognizer chain (`src/lib/parser/index.ts` and `src/lib/parser/parsers/*`),
the assignment selector (`src/lib/worker/assign.ts`),
the run lock (`src/lib/worker/lock.ts`),
the message processor (`src/lib/worker/processor.ts`),
and the base64url utilities (`src/lib/gmail/base64url.ts`).

JavaScript strings are modelled as `List Char` (ASCII-faithful: the
whitespace and letter classes model the ASCII fragment of the Unicode
classes used by the JS runtime).  Timestamps (`Date` values) are modelled
as natural numbers (milliseconds).  Database tables are modelled as lists
of records; the Prisma operations used by the code (`findUnique`,
`findFirst` with an order, `upsert`, `update`) are modelled as the
corresponding list operations.
-/

set_option maxHeartbeats 1000000
set_option maxRecDepth 4000

namespace EmailRouting

/-- JS strings, modelled as lists of characters. -/
abbrev Str := List Char

/-- ASCII whitespace (space 32, tab 9, LF 10, CR 13), modelling the JS
`\s` class and `trim` on ASCII input. -/
def isSpaceChar (c : Char) : Bool :=
  c.toNat = 32 || c.toNat = 9 || c.toNat = 10 || c.toNat = 13

/-- ASCII lower-casing of one character, modelling JS `toLowerCase`. -/
def lcChar (c : Char) : Char :=
  if 65 ≤ c.toNat ∧ c.toNat ≤ 90 then Char.ofNat (c.toNat + 32) else c

/-- ASCII lower-casing of a string. -/
def lcStr (s : Str) : Str := s.map lcChar

/-- JS `String.prototype.trim` (ASCII fragment). -/
def jsTrim (s : Str) : Str :=
  ((s.dropWhile isSpaceChar).reverse.dropWhile isSpaceChar).reverse

/-! ## Text normalizer and field extractors (`src/lib/parser/validators.ts`) -/

/-- Model of `normalizePhone` from `validators.ts`: `phone.replace(/\D/g, "")` keeps
exactly the digit characters, and a single leading `+` is restored when the
trimmed input starts with `+`. -/
def normalizePhone (phone : Str) : Str :=
  let hasPlus : Bool := match jsTrim phone with
    | '+' :: _ => true
    | _ => false
  let digits := phone.filter Char.isDigit
  if hasPlus then '+' :: digits else digits

/-- Model of `phone.replace(/^\+/, "")`: drop one leading `+` if present. -/
def stripLeadPlus : Str → Str
  | '+' :: rest => rest
  | s => s

/-- Model of `isValidPhone` from `validators.ts`: 7–15 digits after normalization. -/
def isValidPhone (phone : Str) : Bool :=
  let normalized := normalizePhone phone
  let digitsOnly := stripLeadPlus normalized
  7 ≤ digitsOnly.length && digitsOnly.length ≤ 15

/-- Model of `formatPhone` from `validators.ts`: US 10- and 11-digit display forms. -/
def formatPhone (phone : Str) : Str :=
  let normalized := normalizePhone phone
  let digitsOnly := stripLeadPlus normalized
  if digitsOnly.length = 10 then
    '(' :: (digitsOnly.take 3 ++ ')' :: ' ' ::
      ((digitsOnly.drop 3).take 3 ++ '-' :: digitsOnly.drop 6))
  else if digitsOnly.length = 11 ∧ digitsOnly.head? = some '1' then
    '+' :: '1' :: ' ' :: '(' :: (((digitsOnly.drop 1).take 3) ++ ')' :: ' ' ::
      (((digitsOnly.drop 4).take 3) ++ '-' :: digitsOnly.drop 7))
  else normalized

/-! ## Run lock (`src/lib/worker/lock.ts`)

The `systemLock` table row for one lock name is modelled as
`Option LockRec` (`none` when no row exists).  `new Date()` is the
parameter `now`; `Date` comparison is `Nat` comparison. -/

/-- Model of `LOCK_TTL_MS = 5 * 60 * 1000` from `lock.ts`. -/
def LOCK_TTL_MS : Nat := 5 * 60 * 1000

/-- One row of the `systemLock` table (for a fixed lock name). -/
structure LockRec where
  lockedBy : Option Str
  expiresAt : Nat
  deriving DecidableEq

/-- Model of `acquireLock` from `lock.ts`, sequential semantics: read the current
row; if it exists and `expiresAt > now` return `false` without writing;
otherwise upsert `{lockedBy := workerId, expiresAt := now + LOCK_TTL_MS}`
and return `true`.  Result is the returned flag paired with the row
after the call. -/
def acquireLock (now : Nat) (workerId : Str) (st : Option LockRec) :
    Bool × Option LockRec :=
  match st with
  | some r =>
      if now < r.expiresAt then (false, some r)
      else (true, some ⟨some workerId, now + LOCK_TTL_MS⟩)
  | none => (true, some ⟨some workerId, now + LOCK_TTL_MS⟩)

/-! ### Interleaved execution of two `acquireLock` calls (C7)

`acquireLock` performs two separate database operations: the
`findUnique` read and the `upsert` write, with no transaction or
compare-and-swap around them.  The small-step model below decomposes one
call into exactly those two steps. -/

/-- Progress of one in-flight `acquireLock` call: not started, read done
(recording whether the read saw an unexpired lock), or returned. -/
inductive AcqPhase where
  | start : AcqPhase
  | readDone : Bool → AcqPhase
  | returned : Bool → AcqPhase
  deriving DecidableEq

/-- One atomic database step of an in-flight `acquireLock now wid` call.
From `start`, perform the `findUnique` read; from `readDone true`
return `false`; from `readDone false` perform the `upsert` and return
`true`.  A `returned` call does not move. -/
def stepAcquire (now : Nat) (wid : Str) :
    Option LockRec × AcqPhase → Option LockRec × AcqPhase
  | (st, .start) =>
      let held : Bool := match st with
        | some r => decide (now < r.expiresAt)
        | none => false
      (st, .readDone held)
  | (st, .readDone true) => (st, .returned false)
  | (_, .readDone false) =>
      (some ⟨some wid, now + LOCK_TTL_MS⟩, .returned true)
  | (st, .returned b) => (st, .returned b)

/-- Two concurrent `acquireLock` calls A and B for the same lock name. -/
structure TwoAcq where
  lock : Option LockRec
  a : AcqPhase
  b : AcqPhase
  deriving DecidableEq

/-- Scheduler choice: which caller takes the next database step. -/
inductive Caller where
  | ca : Caller
  | cb : Caller
  deriving DecidableEq

/-- Interleave the two calls according to a schedule of caller choices. -/
def runSched (now : Nat) (widA widB : Str) :
    List Caller → TwoAcq → TwoAcq
  | [], s => s
  | c :: rest, s =>
      match c with
      | .ca =>
          let (l, pa) := stepAcquire now widA (s.lock, s.a)
          runSched now widA widB rest ⟨l, pa, s.b⟩
      | .cb =>
          let (l, pb) := stepAcquire now widB (s.lock, s.b)
          runSched now widA widB rest ⟨l, s.a, pb⟩

/-! ## Base64url utilities (`src/lib/gmail/base64url.ts`)

Node `Buffer`s are modelled as `List Nat` with every element `< 256`.
`Buffer.prototype.toString("base64")` and `Buffer.from(·, "base64")`
are the standard RFC 4648 encoding with `=` padding (Node's behaviour
on the well-formed strings arising here). -/

/-- The standard base64 alphabet. -/
def base64Alphabet : Str :=
  "ABCDEFGHIJKLMNOPQRSTUVWXYZabcdefghijklmnopqrstuvwxyz0123456789+/".data

/-- Character for a sextet value. -/
def sextetChar (n : Nat) : Char := base64Alphabet.getD n 'A'

/-- Sextet value of an alphabet character. -/
def charSextet (c : Char) : Nat := base64Alphabet.indexOf c

/-- Model of `buf.toString("base64")`: standard base64 with `=` padding. -/
def b64encode : List Nat → Str
  | [] => []
  | [b1] => [sextetChar (b1 / 4), sextetChar (b1 % 4 * 16), '=', '=']
  | [b1, b2] => [sextetChar (b1 / 4), sextetChar (b1 % 4 * 16 + b2 / 16),
      sextetChar (b2 % 16 * 4), '=']
  | b1 :: b2 :: b3 :: rest =>
      sextetChar (b1 / 4) :: sextetChar (b1 % 4 * 16 + b2 / 16) ::
        sextetChar (b2 % 16 * 4 + b3 / 64) :: sextetChar (b3 % 64) ::
        b64encode rest

/-- Decode one base64 quantum, honouring `=` padding in the last group. -/
def decode4 (c1 c2 c3 c4 : Char) : List Nat :=
  let n1 := charSextet c1
  let n2 := charSextet c2
  if c3 = '=' then [n1 * 4 + n2 / 16]
  else
    let n3 := charSextet c3
    if c4 = '=' then [n1 * 4 + n2 / 16, n2 % 16 * 16 + n3 / 4]
    else [n1 * 4 + n2 / 16, n2 % 16 * 16 + n3 / 4,
      n3 % 4 * 64 + charSextet c4]

/-- Model of `Buffer.from(s, "base64")` on a padded well-formed string. -/
def b64decode : Str → List Nat
  | c1 :: c2 :: c3 :: c4 :: rest => decode4 c1 c2 c3 c4 ++ b64decode rest
  | _ => []

/-- The two `replace` calls of `bufferToBase64Url`. -/
def urlEncChar (c : Char) : Char :=
  if c = '+' then '-' else if c = '/' then '_' else c

/-- The two `replace` calls of `base64UrlToBuffer`. -/
def urlDecChar (c : Char) : Char :=
  if c = '-' then '+' else if c = '_' then '/' else c

/-- Model of `s.replace(/=+$/g, "")`: strip the trailing run of `=`. -/
def dropTrailingEq (s : Str) : Str :=
  (s.reverse.dropWhile (· = '=')).reverse

/-- Model of `bufferToBase64Url` from `base64url.ts`. -/
def bufferToBase64Url (buf : List Nat) : Str :=
  dropTrailingEq ((b64encode buf).map urlEncChar)

/-- Model of `base64UrlToBuffer` from `base64url.ts`: undo the character
replacements, restore padding to a multiple of four, decode. -/
def base64UrlToBuffer (s : Str) : List Nat :=
  let b64 := s.map urlDecChar
  let padded := b64 ++ List.replicate ((4 - b64.length % 4) % 4) '='
  b64decode padded

/-- The sextet characters of `b64encode`, without the padding. -/
def encBody : List Nat → Str
  | [] => []
  | [b1] => [sextetChar (b1 / 4), sextetChar (b1 % 4 * 16)]
  | [b1, b2] => [sextetChar (b1 / 4), sextetChar (b1 % 4 * 16 + b2 / 16),
      sextetChar (b2 % 16 * 4)]
  | b1 :: b2 :: b3 :: rest =>
      sextetChar (b1 / 4) :: sextetChar (b1 % 4 * 16 + b2 / 16) ::
        sextetChar (b2 % 16 * 4 + b3 / 64) :: sextetChar (b3 % 64) ::
        encBody rest

/-- Number of `=` padding characters `b64encode` appends. -/
def padCount : List Nat → Nat
  | [] => 0
  | [_] => 2
  | [_, _] => 1
  | _ :: _ :: _ :: rest => padCount rest

/-! ## Assignment selector (`src/lib/worker/assign.ts`)

The `agent` table is a list of `Agent` rows.  `findFirst` with
`orderBy lastAssignedAt asc` returns a minimal row under the column
order (never-assigned `none` rows sorting first, as nulls do in the
underlying store); `minByTs` models it, preferring the earlier row on
ties. -/

/-- One row of the `agent` table. -/
structure Agent where
  id : Nat
  name : Str
  email : Str
  bookingUrl : Option Str
  isActive : Bool
  assignedCount : Nat
  lastAssignedAt : Option Nat
  deriving DecidableEq

/-- Column order on `lastAssignedAt`: `none` (never assigned) first. -/
def tsLeB : Option Nat → Option Nat → Bool
  | none, _ => true
  | some _, none => false
  | some x, some y => x ≤ y

/-- Model of `findFirst` under `orderBy lastAssignedAt asc`: a minimal element,
earlier rows preferred on ties. -/
def minByTs : List Agent → Option Agent
  | [] => none
  | a :: rest =>
      match minByTs rest with
      | none => some a
      | some m =>
          if tsLeB a.lastAssignedAt m.lastAssignedAt then some a else some m

/-- The numeric assignment timestamp of a row (`0` for never-assigned). -/
def tsKey (a : Agent) : Nat := a.lastAssignedAt.getD 0

/-- Model of `pickAgentRoundRobin` from `assign.ts`: select the active agent with
the oldest `lastAssignedAt`; throw when there is none; otherwise update
that agent's `lastAssignedAt` to now and increment its `assignedCount`,
and return the selected (pre-update) row together with the table after
the update. -/
def updAgent (now : Nat) (aid : Nat) (x : Agent) : Agent :=
  if x.id = aid then
    { x with lastAssignedAt := some now, assignedCount := x.assignedCount + 1 }
  else x

def pickAgentRoundRobin (now : Nat) (agents : List Agent) :
    Except Str (Agent × List Agent) :=
  match minByTs (agents.filter (·.isActive)) with
  | none => .error ("No active agents available for assignment. Please add agents to the database.").data
  | some a => .ok (a, agents.map (updAgent now a.id))

/-- The active rows of the roster. -/
def actives (agents : List Agent) : List Agent := agents.filter (·.isActive)

/-- A sequence of `pickAgentRoundRobin` calls at the given times, each
call's atomic update applied before the next call; collects the returned
(pre-update) rows and the final roster. -/
def runPicks : List Nat → List Agent → List (Except Str Agent) × List Agent
  | [], agents => ([], agents)
  | t :: ts, agents =>
      match pickAgentRoundRobin t agents with
      | .error e =>
          let r := runPicks ts agents
          (.error e :: r.1, r.2)
      | .ok (a, agents2) =>
          let r := runPicks ts agents2
          (.ok a :: r.1, r.2)

/-! ## Message processor (`src/lib/worker/processor.ts`)

The database is a record of the three tables; external effects
(the Gmail fetch + recognizer chain of `extractLeadData`, the reply
send, the `UNREAD`-label removal) are an oracle `Ext` giving their
outcomes, and the processor records the externally visible operations
it performs, in order, as a list of `Event`s. -/

/-- Model of `LeadData`: the candidate produced by `extractLeadData`. -/
structure LeadCand where
  email : Str
  firstName : Option Str
  lastName : Option Str
  phone : Option Str
  source : Str
  deriving DecidableEq

/-- One row of the `lead` table. -/
structure LeadRec where
  id : Nat
  email : Str
  firstName : Option Str
  lastName : Option Str
  phone : Option Str
  source : Str
  sourceMessage : Str
  assignedAgentId : Nat
  assignedAt : Nat
  replySentAt : Option Nat
  deriving DecidableEq

/-- Status of a `processedMessage` row. -/
inductive PStatus where
  | processing : PStatus
  | success : PStatus
  | failed : PStatus
  deriving DecidableEq

/-- One row of the `processedMessage` (dead-letter) table. -/
structure ProcRec where
  messageId : Str
  attempts : Nat
  lastAttemptAt : Nat
  status : PStatus
  errorLog : Option Str
  deriving DecidableEq

/-- The state store. -/
structure Db where
  leads : List LeadRec
  processed : List ProcRec
  agents : List Agent
  nextLeadId : Nat
  deriving DecidableEq

/-- Externally visible operations of one `processMessage` run, in order. -/
inductive Event where
  | procMark : Str → Nat → Event
  | fetchExtract : Str → Event
  | agentPick : Event
  | leadUpsert : Str → Event
  | sendReply : Str → Event
  | setReplySent : Nat → Event
  | markSuccess : Str → Event
  | ackRead : Str → Event
  | markFailed : Str → Str → Event
  | alert : Str → Event
  deriving DecidableEq

/-- Result record of `processMessage`. -/
structure ProcessResult where
  messageId : Str
  success : Bool
  leadId : Option Nat
  agentName : Option Str
  error : Option Str
  deriving DecidableEq

/-- Oracle for the external effects of one run: the outcome of the
Gmail fetch + recognizer chain, and whether the reply send and the
`UNREAD`-label removal succeed. -/
structure Ext where
  extractResult : Except Str LeadCand
  sendOk : Bool
  ackOk : Bool

/-- Model of `prisma.processedMessage.findUnique({where: {messageId}})`. -/
def findProc (db : Db) (msgId : Str) : Option ProcRec :=
  db.processed.find? (fun p => decide (p.messageId = msgId))

/-- Attempt count currently recorded for a message (0 when no row). -/
def priorAttempts (db : Db) (msgId : Str) : Nat :=
  match findProc db msgId with
  | some p => p.attempts
  | none => 0

/-- Step 1 of `processMessage`: upsert the dead-letter row with the
incremented attempt counter, `status = PROCESSING` and a cleared error
log. -/
def markProcessing (now : Nat) (msgId : Str) (db : Db) : Db :=
  let newRec : ProcRec :=
    ⟨msgId, priorAttempts db msgId + 1, now, .processing, none⟩
  match findProc db msgId with
  | some _ =>
      let rows := db.processed.map
        (fun p => if p.messageId = msgId then newRec else p)
      { db with processed := rows }
  | none => { db with processed := db.processed ++ [newRec] }

/-- Model of `prisma.processedMessage.update` of `status`/`errorLog`. -/
def setProcStatus (msgId : Str) (st : PStatus) (err : Option Str)
    (db : Db) : Db :=
  let rows := db.processed.map (fun p =>
    if p.messageId = msgId then { p with status := st, errorLog := err }
    else p)
  { db with processed := rows }

/-- JS `a ?? b` on nullable fields. -/
def coalesce (a b : Option Str) : Option Str :=
  match a with
  | some x => some x
  | none => b

/-- Step 4 of `processMessage`: `prisma.lead.upsert({where: {email}})`.
When a row with the candidate's email exists, non-null incoming
`firstName`/`lastName`/`phone` overwrite the stored fields while
`source`, `sourceMessage`, `assignedAgentId` and `assignedAt` are always
overwritten; otherwise a fresh row is created (with a null
`replySentAt`).  Returns the row as written. -/
def upsertLead (cand : LeadCand) (msgId : Str) (agentId : Nat) (now : Nat)
    (db : Db) : LeadRec × Db :=
  match db.leads.find? (fun l => decide (l.email = cand.email)) with
  | some old =>
      let merged : LeadRec := { old with
        firstName := coalesce cand.firstName old.firstName,
        lastName := coalesce cand.lastName old.lastName,
        phone := coalesce cand.phone old.phone,
        source := cand.source,
        sourceMessage := msgId,
        assignedAgentId := agentId,
        assignedAt := now }
      let rows := db.leads.map
        (fun l => if l.email = cand.email then merged else l)
      (merged, { db with leads := rows })
  | none =>
      let created : LeadRec :=
        ⟨db.nextLeadId, cand.email, cand.firstName, cand.lastName,
          cand.phone, cand.source, msgId, agentId, now, none⟩
      (created, { db with leads := db.leads ++ [created],
                          nextLeadId := db.nextLeadId + 1 })

/-- Step 5's `prisma.lead.update({where: {id}, data: {replySentAt}})`. -/
def setReplySent (leadId : Nat) (now : Nat) (db : Db) : Db :=
  let rows := db.leads.map (fun l =>
    if l.id = leadId then { l with replySentAt := some now } else l)
  { db with leads := rows }

/-- Error text recorded when the reply send throws. -/
def SEND_FAIL : Str := "sendLeadReply failed".data

/-- Error text recorded when the `UNREAD`-label removal throws. -/
def ACK_FAIL : Str := "gmail modify failed".data

/-- The catch block of `processMessage`: mark the dead-letter row FAILED
with the error, then alert (best-effort), leaving the message unread. -/
def failPath (msgId : Str) (e : Str) (db : Db) (evs : List Event) :
    Db × List Event × ProcessResult :=
  (setProcStatus msgId .failed (some e) db,
    evs ++ [.markFailed msgId e, .alert msgId],
    ⟨msgId, false, none, none, some e⟩)

/-- Steps 6–7 of `processMessage`: mark SUCCESS, then remove the
`UNREAD` label (whose failure falls into the catch block after the row
was already marked SUCCESS). -/
def finishSuccess (ext : Ext) (msgId : Str) (upserted : LeadRec)
    (agent : Agent) (db : Db) (evs : List Event) :
    Db × List Event × ProcessResult :=
  let db5 := setProcStatus msgId .success none db
  if ext.ackOk then
    (db5, evs ++ [.markSuccess msgId, .ackRead msgId],
      ⟨msgId, true, some upserted.id, some agent.name, none⟩)
  else failPath msgId ACK_FAIL db5 (evs ++ [.markSuccess msgId])

/-- Model of `processMessage` from `processor.ts`: the seven-step pipeline with
its catch-all failure path. -/
def processMessage (ext : Ext) (now : Nat) (msgId : Str) (db : Db) :
    Db × List Event × ProcessResult :=
  let prior := priorAttempts db msgId
  let db1 := markProcessing now msgId db
  let ev1 : List Event := [.procMark msgId (prior + 1)]
  match ext.extractResult with
  | .error e => failPath msgId e db1 (ev1 ++ [.fetchExtract msgId])
  | .ok lead =>
    let ev2 := ev1 ++ [.fetchExtract msgId]
    match pickAgentRoundRobin now db1.agents with
    | .error e => failPath msgId e db1 (ev2 ++ [.agentPick])
    | .ok (agent, agents') =>
      let db2 := { db1 with agents := agents' }
      let (upserted, db3) := upsertLead lead msgId agent.id now db2
      let ev3 := ev2 ++ [.agentPick, .leadUpsert lead.email]
      match upserted.replySentAt with
      | none =>
        if ext.sendOk then
          finishSuccess ext msgId upserted agent
            (setReplySent upserted.id now db3)
            (ev3 ++ [.sendReply upserted.email, .setReplySent upserted.id])
        else failPath msgId SEND_FAIL db3 (ev3 ++ [.sendReply upserted.email])
      | some _ => finishSuccess ext msgId upserted agent db3 ev3

/-- Run a sequence of `processMessage` invocations. -/
def runSeq : List (Ext × Nat × Str) → Db → Db
  | [], db => db
  | (e, n, m) :: rest, db => runSeq rest (processMessage e n m db).1

/-- Number of outbound reply sends recorded in an event trace. -/
def countSends (evs : List Event) : Nat :=
  evs.countP (fun e => match e with
    | .sendReply _ => true
    | _ => false)

/-- The reply-sent timestamp stored for an email at some point: the
`replySentAt` of the row `findUnique` would return (null when absent). -/
def storedReply (db : Db) (email : Str) : Option Nat :=
  match db.leads.find? (fun l => decide (l.email = email)) with
  | some old => old.replySentAt
  | none => none

/-! ## Recognizer chain (`src/lib/parser/index.ts`, `src/lib/parser/parsers/*`)

Regular-expression matching is embedded as explicit scanners over
`List Char`, following the JS engine's leftmost-start, greedy,
backtracking semantics for the specific patterns the parsers use.
Character classes are the ASCII classes of the patterns, expressed via
`Char.toNat` (letter 65–90/97–122, digit 48–57, `.` 46, `-` 45, `_` 95,
`%` 37, `+` 43, `@` 64).

Each recognizer is embedded as a `Candidate`-producing function tracking
the two fields the chain's control flow depends on: `email` (the single
mandatory field — a recognizer with no usable email reports no-match)
and the `source` tag.  The name/phone/extra-field extraction of the
recognizers never influences whether a candidate is produced nor which
email it carries, and no claim concerns those fields. -/

/-- ASCII letter, the `[a-zA-Z]` class. -/
def isLetterChar (c : Char) : Bool :=
  (65 ≤ c.toNat && c.toNat ≤ 90) || (97 ≤ c.toNat && c.toNat ≤ 122)

/-- ASCII digit, the `[0-9]` class. -/
def isDigitChar (c : Char) : Bool := 48 ≤ c.toNat && c.toNat ≤ 57

/-- The local-part class `[a-zA-Z0-9._%+-]` of `extractEmails`. -/
def isLocalChar (c : Char) : Bool :=
  isLetterChar c || isDigitChar c || c.toNat = 46 || c.toNat = 95 ||
    c.toNat = 37 || c.toNat = 43 || c.toNat = 45

/-- The domain class `[a-zA-Z0-9.-]` of `extractEmails`. -/
def isDomainChar (c : Char) : Bool :=
  isLetterChar c || isDigitChar c || c.toNat = 46 || c.toNat = 45

/-- The `[^\s@]` class of the labeled-email patterns and `isValidEmail`. -/
def isLooseChar (c : Char) : Bool := !isSpaceChar c && !(c.toNat = 64)

/-- A `.` at an inner index of `r` (some character before it, at least
one after it): the shape `.+\..+` imposed on the part after `@`. -/
def hasInnerDot (r : Str) : Bool :=
  (List.range r.length).any (fun p =>
    decide (1 ≤ p) && decide (p + 2 ≤ r.length) && (r.getD p '#' = '.'))

/-- Model of `isValidEmail` from `validators.ts`: the anchored
`^[^\s@]+@[^\s@]+\.[^\s@]+$` test on the trimmed, lower-cased input. -/
def isValidEmail (email : Str) : Bool :=
  let s := lcStr (jsTrim email)
  let A := s.takeWhile isLooseChar
  let r1 := s.dropWhile isLooseChar
  !A.isEmpty && (r1.head? == some '@') &&
    (r1.tail.dropWhile isLooseChar).isEmpty && hasInnerDot r1.tail

/-- Candidate backtracking index in the domain run `dom` of the
`extractEmails` pattern: a `p ≥ 1` with `dom[p] = '.'` followed by at
least two letters inside the run (the `\.[a-zA-Z]{2,}` tail). -/
def validEmailSplit (dom : Str) (p : Nat) : Bool :=
  decide (1 ≤ p) && (dom.getD p '#' = '.') &&
    isLetterChar (dom.getD (p + 1) '#') &&
    isLetterChar (dom.getD (p + 2) '#') && decide (p + 3 ≤ dom.length)

/-- Last (largest) index of `idxs` satisfying `valid`. -/
def lastSatisfying (valid : Nat → Bool) (idxs : List Nat) : Option Nat :=
  idxs.foldl (fun acc p => if valid p then some p else acc) none

/-- One match attempt of the `extractEmails` pattern
`[a-zA-Z0-9._%+-]+@[a-zA-Z0-9.-]+\.[a-zA-Z]{2,}` anchored at the head of
`l`: returns the matched substring and the remainder after it. -/
def matchEmailAt (l : Str) : Option (Str × Str) :=
  let loc := l.takeWhile isLocalChar
  let r1 := l.dropWhile isLocalChar
  if loc.isEmpty then none
  else if r1.head? = some '@' then
    let r2 := r1.tail
    let dom := r2.takeWhile isDomainChar
    match lastSatisfying (validEmailSplit dom) (List.range dom.length) with
    | none => none
    | some p =>
        let tld := (dom.drop (p + 1)).takeWhile isLetterChar
        some (loc ++ '@' :: (dom.take p ++ '.' :: tld),
          ((dom.drop (p + 1)).dropWhile isLetterChar) ++
            r2.dropWhile isDomainChar)
  else none

/-- Global scan of the `extractEmails` pattern: on a failed attempt the
start position advances by one character; after a match scanning resumes
at the match end. -/
def scanEmailsAux : Nat → Str → List Str
  | 0, _ => []
  | _ + 1, [] => []
  | fuel + 1, c :: rest =>
      match matchEmailAt (c :: rest) with
      | some (m, r) => m :: scanEmailsAux fuel r
      | none => scanEmailsAux fuel rest

/-- First-occurrence-preserving de-duplication (`[...new Set(xs)]`). -/
def dedupFirst (l : List Str) : List Str :=
  l.foldl (fun acc x => if x ∈ acc then acc else acc ++ [x]) []

/-- Model of `extractEmails` from `validators.ts`: all matches of the email
pattern, lower-cased, de-duplicated preserving first-occurrence order. -/
def extractEmails (text : Str) : List Str :=
  dedupFirst ((scanEmailsAux text.length text).map lcStr)

/-- Substring containment: JS `hay.includes(needle)`. -/
def containsSub (hay needle : Str) : Bool :=
  hay.tails.any (fun t => needle.isPrefixOf t)

/-- Model of `hay.toLowerCase().includes(needle)` for a lower-case `needle`. -/
def lcContains (hay needle : Str) : Bool := containsSub (lcStr hay) needle

/-- One unanchored attempt of `[^\s@]+@[^\s@]+\.[^\s@]+` at the head of
`l`, returning the captured text: the greedy run before `@`, the `@`,
and the whole greedy run after it, provided that run has an inner dot. -/
def looseMatchAt (l : Str) : Option Str :=
  let A := l.takeWhile isLooseChar
  let r1 := l.dropWhile isLooseChar
  if A.isEmpty then none
  else if r1.head? = some '@' then
    let R := r1.tail.takeWhile isLooseChar
    if hasInnerDot R then some (A ++ '@' :: R) else none
  else none

/-- Does the text contain a substring matching the loose
`local@domain.tld` email shape of §4.1's validity pattern? -/
def containsLooseEmail (l : Str) : Bool :=
  l.tails.any (fun s => (looseMatchAt s).isSome)

/-- Case-insensitive literal prefix strip: consume the (lower-case)
label at the head of the text. -/
def stripLabelCI : Str → Str → Option Str
  | [], l => some l
  | _ :: _, [] => none
  | lc0 :: lrest, c :: crest =>
      if lcChar c = lc0 then stripLabelCI lrest crest else none

/-- Try one label alternative at this position: the label literal, then
`\s*`, then the loose email capture. -/
def tryLabelAt (lbl : Str) (l : Str) : Option Str :=
  match stripLabelCI lbl l with
  | none => none
  | some r => looseMatchAt (r.dropWhile isSpaceChar)

/-- Try the alternation's labels in order at this position. -/
def tryLabelsAt (lbls : List Str) (l : Str) : Option Str :=
  match lbls with
  | [] => none
  | lbl :: rest =>
      match tryLabelAt lbl l with
      | some cap => some cap
      | none => tryLabelsAt rest l

def findLabeledAux : Nat → List Str → Str → Option Str
  | 0, _, _ => none
  | _ + 1, _, [] => none
  | fuel + 1, lbls, c :: rest =>
      match tryLabelsAt lbls (c :: rest) with
      | some cap => some cap
      | none => findLabeledAux fuel lbls rest

/-- Model of `text.match(/(?:L1|L2|...):\s*([^\s@]+@[^\s@]+\.[^\s@]+)/i)`: the
capture of the leftmost position where some label alternative followed
by a loose email matches. -/
def findLabeled (lbls : List Str) (text : Str) : Option Str :=
  findLabeledAux text.length lbls text

/-- The labeled-email loop shared by the source-specific parsers: for
each pattern in order, take its first match's capture; if it passes
`isValidEmail`, the lower-cased capture wins; otherwise try the next
pattern. -/
def labeledEmailFrom (pats : List (List Str)) (text : Str) : Option Str :=
  match pats with
  | [] => none
  | lbls :: rest =>
      match findLabeled lbls text with
      | some cap =>
          if isValidEmail cap then some (lcStr cap)
          else labeledEmailFrom rest text
      | none => labeledEmailFrom rest text

/-- A recognizer's output, restricted to the fields the chain's control
flow depends on. -/
structure Candidate where
  email : Str
  source : Str
  deriving DecidableEq

/-- Zillow's labeled-email alternation `(?:Email|E-mail|Contact Email):`. -/
def zillowEmailPats : List (List Str) :=
  [["email:".data, "e-mail:".data, "contact email:".data]]

/-- Zillow's own-address filter: `!zillow && !zillowgroup`. -/
def zillowKeep (e : Str) : Bool :=
  !containsSub e "zillow".data && !containsSub e "zillowgroup".data

/-- Zillow's signature test. -/
def zillowSignature (text subject : Str) : Bool :=
  lcContains subject "zillow".data || lcContains text "zillow.com".data ||
    lcContains text "from zillow".data

/-- Model of `parseZillowLead` from `parsers/zillow.ts` (email/source fields). -/
def parseZillowLead (text subject : Str) : Option Candidate :=
  if zillowSignature text subject then
    match labeledEmailFrom zillowEmailPats text with
    | some e => some ⟨e, "zillow".data⟩
    | none =>
        match ((extractEmails text).filter zillowKeep).head? with
        | some e => some ⟨e, "zillow".data⟩
        | none => none
  else none

/-- Realtor's two labeled-email patterns, tried in order. -/
def realtorEmailPats : List (List Str) :=
  [["email:".data, "e-mail:".data], ["contact:".data, "reply to:".data]]

/-- Realtor's filter: `!realtor.com && !move.com && !noreply`. -/
def realtorKeep (e : Str) : Bool :=
  !containsSub e "realtor.com".data && !containsSub e "move.com".data &&
    !containsSub e "noreply".data

/-- Realtor's signature test. -/
def realtorSignature (text subject : Str) : Bool :=
  lcContains subject "realtor.com".data ||
    lcContains subject "realtor lead".data ||
    lcContains text "realtor.com".data || lcContains text "move.com".data

/-- Model of `parseRealtorLead` from `parsers/realtor.ts` (email/source fields). -/
def parseRealtorLead (text subject : Str) : Option Candidate :=
  if realtorSignature text subject then
    match labeledEmailFrom realtorEmailPats text with
    | some e => some ⟨e, "realtor".data⟩
    | none =>
        match ((extractEmails text).filter realtorKeep).head? with
        | some e => some ⟨e, "realtor".data⟩
        | none => none
  else none

/-- Facebook's labeled-email alternation. -/
def facebookEmailPats : List (List Str) :=
  [["email:".data, "e-mail:".data, "email_address:".data]]

/-- Facebook's filter: `!facebook && !fb.com && !facebookmail`. -/
def facebookKeep (e : Str) : Bool :=
  !containsSub e "facebook".data && !containsSub e "fb.com".data &&
    !containsSub e "facebookmail".data

/-- Facebook's signature test. -/
def facebookSignature (text subject : Str) : Bool :=
  lcContains subject "facebook".data ||
    lcContains subject "new lead from".data ||
    lcContains text "facebook.com".data || lcContains text "fb.com".data ||
    lcContains text "lead ad".data

/-- Model of `parseFacebookLead` from `parsers/facebook.ts` (email/source fields). -/
def parseFacebookLead (text subject : Str) : Option Candidate :=
  if facebookSignature text subject then
    match labeledEmailFrom facebookEmailPats text with
    | some e => some ⟨e, "facebook".data⟩
    | none =>
        match ((extractEmails text).filter facebookKeep).head? with
        | some e => some ⟨e, "facebook".data⟩
        | none => none
  else none

/-- The generic mailer filter of `parsers/generic.ts`. -/
def genericKeep (e : Str) : Bool :=
  !containsSub e "noreply".data && !containsSub e "no-reply".data &&
    !containsSub e "donotreply".data && !containsSub e "mailer-daemon".data &&
    !containsSub e "postmaster".data

/-- Model of `parseGenericLead` from `parsers/generic.ts` (email/source fields):
no signature test; the first extracted address surviving the mailer
filter, else no-match. -/
def parseGenericLead (text _subject : Str) : Option Candidate :=
  match ((extractEmails text).filter genericKeep).head? with
  | some e => some ⟨e, "generic".data⟩
  | none => none

/-- The parser chain of `parser/index.ts`, most specific first, generic
fallback last. -/
def parsers : List (Str → Str → Option Candidate) :=
  [parseZillowLead, parseRealtorLead, parseFacebookLead, parseGenericLead]

/-- First candidate in chain order whose email passes `isValidEmail`. -/
def chainFirstValid : List (Str → Str → Option Candidate) → Str → Str →
    Option Candidate
  | [], _, _ => none
  | p :: rest, t, s =>
      match p t s with
      | some c =>
          if isValidEmail c.email then some c else chainFirstValid rest t s
      | none => chainFirstValid rest t s

/-- The thrown no-lead-extractable message. -/
def NO_LEAD_MSG : Str :=
  "Could not parse lead data from email. No valid email address found.".data

/-- Model of `parseLeadFromText` from `parser/index.ts`: first successful parse
with a valid email, or the no-lead-extractable error. -/
def parseLeadFromText (text subject : Str) : Except Str Candidate :=
  match chainFirstValid parsers text subject with
  | some c => .ok c
  | none => .error NO_LEAD_MSG

/-- First valid candidate of an explicit list of recognizer outputs. -/
def firstValidCand : List (Option Candidate) → Option Candidate
  | [] => none
  | none :: rest => firstValidCand rest
  | some c :: rest =>
      if isValidEmail c.email then some c else firstValidCand rest

/-! ## Theorems -/

/-- C9.  Phone normalization pipeline: `normalizePhone` returns exactly the
digit characters of the input in their original order, with a single
leading `+` if and only if the trimmed input begins with `+`; on the
concrete input `"(555) 123-4567"` it returns `"5551234567"`, which
`isValidPhone` accepts and `formatPhone` renders back as
`"(555) 123-4567"`. -/
theorem C9_phone_normalization :
    (∀ s : Str, normalizePhone s =
      (if (jsTrim s).head? = some '+' then ['+'] else []) ++ s.filter Char.isDigit) ∧
    normalizePhone "(555) 123-4567".data = "5551234567".data ∧
    isValidPhone "5551234567".data = true ∧
    formatPhone "5551234567".data = "(555) 123-4567".data := by
  refine ⟨fun s => ?_, by decide, by decide, by decide⟩
  unfold normalizePhone
  cases h : jsTrim s with
  | nil => simp [h]
  | cons c rest =>
    by_cases hc : c = '+'
    · subst hc; simp [h]
    · simp only [h]
      cases c
      simp_all

/-- C6.  Lock acquisition, sequential semantics: when a row exists whose
expiry is strictly in the future, `acquireLock` returns `false` and leaves
the row unchanged; otherwise (no row, or expiry ≤ now) it writes the
caller's holder id with expiry `now + LOCK_TTL_MS` (the 5-minute TTL) and
returns `true`. -/
theorem C6_acquireLock_cases (now : Nat) (wid : Str) (st : Option LockRec) :
    (∀ r, st = some r → now < r.expiresAt →
      acquireLock now wid st = (false, some r)) ∧
    ((st = none ∨ ∃ r, st = some r ∧ r.expiresAt ≤ now) →
      acquireLock now wid st = (true, some ⟨some wid, now + LOCK_TTL_MS⟩)) := by
  constructor
  · intro r hr hlt
    subst hr
    simp [acquireLock, hlt]
  · rintro (rfl | ⟨r, rfl, hle⟩)
    · rfl
    · simp [acquireLock, Nat.not_lt.mpr hle]

/-- Witness for `C6_acquireLock_cases`: a held lock (expiry 10 > now 5) is
refused, and an expired lock (expiry 3 ≤ now 5) is taken over. -/
theorem C6_acquireLock_cases_witness :
    acquireLock 5 "w2".data (some ⟨some "w1".data, 10⟩) =
      (false, some ⟨some "w1".data, 10⟩) ∧
    acquireLock 5 "w2".data (some ⟨some "w1".data, 3⟩) =
      (true, some ⟨some "w2".data, 5 + LOCK_TTL_MS⟩) := by
  constructor
  · exact (C6_acquireLock_cases 5 "w2".data (some ⟨some "w1".data, 10⟩)).1
      ⟨some "w1".data, 10⟩ rfl (by decide)
  · exact (C6_acquireLock_cases 5 "w2".data (some ⟨some "w1".data, 3⟩)).2
      (Or.inr ⟨⟨some "w1".data, 3⟩, rfl, by decide⟩)

/-- Running the two steps of one call back to back is exactly the
sequential `acquireLock` — the small-step decomposition is faithful. -/
theorem stepAcquire_twice_eq_acquireLock (now : Nat) (wid : Str)
    (st : Option LockRec) :
    stepAcquire now wid (stepAcquire now wid (st, .start)) =
      ((acquireLock now wid st).2, .returned (acquireLock now wid st).1) := by
  cases st with
  | none => rfl
  | some r =>
    by_cases h : now < r.expiresAt <;>
      simp [stepAcquire, acquireLock, h]

/-- C7.  Lock mutual exclusion fails on the code: with no prior lock held,
the interleaving read-A, read-B, write-A, write-B makes **both** calls
return `true` — two racing holders both acquire the lock, because the
read and the upsert are not one atomic step.  This contradicts the
component's stated purpose (`lock.ts`: "prevents multiple cron jobs from
running simultaneously"). -/
theorem C7_lock_race_both_acquire :
    (runSched 0 "workerA".data "workerB".data
        [.ca, .cb, .ca, .cb] ⟨none, .start, .start⟩).a =
      .returned true ∧
    (runSched 0 "workerA".data "workerB".data
        [.ca, .cb, .ca, .cb] ⟨none, .start, .start⟩).b =
      .returned true := by
  constructor <;> rfl

theorem sextetChar_mem : ∀ n < 64, sextetChar n ∈ base64Alphabet := by decide

theorem charSextet_sextetChar : ∀ n < 64, charSextet (sextetChar n) = n := by
  decide

theorem alphabet_urlChar :
    ∀ c ∈ base64Alphabet, urlDecChar (urlEncChar c) = c ∧
      urlEncChar c ≠ '+' ∧ urlEncChar c ≠ '/' ∧ urlEncChar c ≠ '=' := by
  decide

theorem b64encode_eq_body_pad (l : List Nat) :
    b64encode l = encBody l ++ List.replicate (padCount l) '=' := by
  induction l using b64encode.induct with
  | case1 => rfl
  | case2 b1 => rfl
  | case3 b1 b2 => rfl
  | case4 b1 b2 b3 rest ih =>
    simp only [b64encode, encBody, padCount, ih, List.cons_append]

theorem encBody_mem_alphabet (l : List Nat) (h : ∀ b ∈ l, b < 256) :
    ∀ c ∈ encBody l, c ∈ base64Alphabet := by
  induction l using encBody.induct with
  | case1 => intro c hc; simp [encBody] at hc
  | case2 b1 =>
    have hb1 : b1 < 256 := h b1 (by simp)
    intro c hc
    simp only [encBody, List.mem_cons, List.mem_singleton] at hc
    rcases hc with rfl | rfl | h'
    · exact sextetChar_mem _ (by omega)
    · exact sextetChar_mem _ (by omega)
    · simp at h'
  | case3 b1 b2 =>
    have hb1 : b1 < 256 := h b1 (by simp)
    have hb2 : b2 < 256 := h b2 (by simp)
    intro c hc
    simp only [encBody, List.mem_cons, List.mem_singleton] at hc
    rcases hc with rfl | rfl | rfl | h'
    · exact sextetChar_mem _ (by omega)
    · exact sextetChar_mem _ (by omega)
    · exact sextetChar_mem _ (by omega)
    · simp at h'
  | case4 b1 b2 b3 rest ih =>
    have hb1 : b1 < 256 := h b1 (by simp)
    have hb2 : b2 < 256 := h b2 (by simp)
    have hb3 : b3 < 256 := h b3 (by simp)
    have ih' := ih (fun b hb => h b (by simp [hb]))
    intro c hc
    simp only [encBody, List.mem_cons] at hc
    rcases hc with rfl | rfl | rfl | rfl | h'
    · exact sextetChar_mem _ (by omega)
    · exact sextetChar_mem _ (by omega)
    · exact sextetChar_mem _ (by omega)
    · exact sextetChar_mem _ (by omega)
    · exact ih' c h'

theorem padCount_eq (l : List Nat) :
    padCount l = (4 - (encBody l).length % 4) % 4 := by
  induction l using encBody.induct with
  | case1 => rfl
  | case2 b1 => rfl
  | case3 b1 b2 => rfl
  | case4 b1 b2 b3 rest ih =>
    simp only [padCount, encBody, List.length_cons, ih]
    omega

theorem dropTrailingEq_body_pad (body : Str) (k : Nat)
    (h : ∀ c ∈ body, c ≠ '=') :
    dropTrailingEq (body ++ List.replicate k '=') = body := by
  unfold dropTrailingEq
  rw [List.reverse_append, List.reverse_replicate]
  have h1 : ∀ m (r : Str), List.dropWhile (· = '=') (List.replicate m '=' ++ r) =
      List.dropWhile (· = '=') r := by
    intro m
    induction m with
    | zero => intro r; rfl
    | succ n ih => intro r; simp [List.replicate_succ, List.dropWhile, ih]
  rw [h1]
  cases hb : body.reverse with
  | nil =>
    have : body = [] := by simpa using congrArg List.reverse hb
    simp [this]
  | cons c rest =>
    have hc : c ∈ body := by
      rw [← List.mem_reverse, hb]; simp
    rw [List.dropWhile_cons, if_neg (by simpa using h c hc), ← hb,
      List.reverse_reverse]

theorem sextetChar_ne_pad : ∀ n < 64, sextetChar n ≠ '=' := by decide

theorem split_div_mod (x y k : Nat) (hy : y < k) (hk : 0 < k) :
    (x * k + y) / k = x ∧ (x * k + y) % k = y := by
  constructor
  · rw [mul_comm, Nat.mul_add_div hk, Nat.div_eq_of_lt hy, Nat.add_zero]
  · rw [mul_comm, Nat.mul_add_mod, Nat.mod_eq_of_lt hy]

theorem b64decode_b64encode (l : List Nat) (h : ∀ b ∈ l, b < 256) :
    b64decode (b64encode l) = l := by
  induction l using b64encode.induct with
  | case1 => rfl
  | case2 b1 =>
    have hb1 : b1 < 256 := h b1 (by simp)
    have e1 := charSextet_sextetChar (b1 / 4) (by omega)
    have e2 := charSextet_sextetChar (b1 % 4 * 16) (by omega)
    have d1 := (split_div_mod (b1 % 4) 0 16 (by omega) (by omega)).1
    simp only [Nat.add_zero] at d1
    simp [b64encode, b64decode, decode4, e1, e2, d1]
    omega
  | case3 b1 b2 =>
    have hb1 : b1 < 256 := h b1 (by simp)
    have hb2 : b2 < 256 := h b2 (by simp)
    have e1 := charSextet_sextetChar (b1 / 4) (by omega)
    have e2 := charSextet_sextetChar (b1 % 4 * 16 + b2 / 16) (by omega)
    have e3 := charSextet_sextetChar (b2 % 16 * 4) (by omega)
    have ne3 := sextetChar_ne_pad (b2 % 16 * 4) (by omega)
    have d1 := split_div_mod (b1 % 4) (b2 / 16) 16 (by omega) (by omega)
    have d2 := (split_div_mod (b2 % 16) 0 4 (by omega) (by omega)).1
    simp only [Nat.add_zero] at d2
    simp [b64encode, b64decode, decode4, e1, e2, e3, ne3, d1.1, d1.2, d2]
    omega
  | case4 b1 b2 b3 rest ih =>
    have hb1 : b1 < 256 := h b1 (by simp)
    have hb2 : b2 < 256 := h b2 (by simp)
    have hb3 : b3 < 256 := h b3 (by simp)
    have ih' := ih (fun b hb => h b (by simp [hb]))
    have e1 := charSextet_sextetChar (b1 / 4) (by omega)
    have e2 := charSextet_sextetChar (b1 % 4 * 16 + b2 / 16) (by omega)
    have e3 := charSextet_sextetChar (b2 % 16 * 4 + b3 / 64) (by omega)
    have e4 := charSextet_sextetChar (b3 % 64) (by omega)
    have ne3 := sextetChar_ne_pad (b2 % 16 * 4 + b3 / 64) (by omega)
    have ne4 := sextetChar_ne_pad (b3 % 64) (by omega)
    have d1 := split_div_mod (b1 % 4) (b2 / 16) 16 (by omega) (by omega)
    have d2 := split_div_mod (b2 % 16) (b3 / 64) 4 (by omega) (by omega)
    simp [b64encode, b64decode, decode4, e1, e2, e3, e4, ne3, ne4,
      d1.1, d1.2, d2.1, d2.2, ih']
    omega

theorem bufferToBase64Url_eq_mapped_body (l : List Nat)
    (h : ∀ b ∈ l, b < 256) :
    bufferToBase64Url l = (encBody l).map urlEncChar := by
  unfold bufferToBase64Url
  rw [b64encode_eq_body_pad, List.map_append, List.map_replicate]
  have hpad : urlEncChar '=' = '=' := rfl
  rw [hpad]
  apply dropTrailingEq_body_pad
  intro c hc
  rcases List.mem_map.mp hc with ⟨c0, hc0, rfl⟩
  exact (alphabet_urlChar c0 (encBody_mem_alphabet l h c0 hc0)).2.2.2

/-- C10.  Base64url round-trip: decoding the URL-safe encoding of any byte
buffer restores exactly the original bytes, and the encoded string never
contains `'+'`, `'/'` or `'='`. -/
theorem C10_base64url_roundtrip (l : List Nat) (h : ∀ b ∈ l, b < 256) :
    base64UrlToBuffer (bufferToBase64Url l) = l ∧
    ∀ c ∈ bufferToBase64Url l, c ≠ '+' ∧ c ≠ '/' ∧ c ≠ '=' := by
  have hbody := encBody_mem_alphabet l h
  have hb : bufferToBase64Url l = (encBody l).map urlEncChar :=
    bufferToBase64Url_eq_mapped_body l h
  constructor
  · rw [hb]
    unfold base64UrlToBuffer
    have hmm : ((encBody l).map urlEncChar).map urlDecChar = encBody l := by
      rw [List.map_map]
      have : ∀ s : Str, (∀ c ∈ s, urlDecChar (urlEncChar c) = c) →
          s.map (urlDecChar ∘ urlEncChar) = s := by
        intro s
        induction s with
        | nil => intro _; rfl
        | cons a t ihs =>
          intro hs
          simp only [List.map_cons, Function.comp_apply,
            hs a (by simp), ihs (fun b hb => hs b (by simp [hb]))]
      exact this _ (fun c hc => (alphabet_urlChar c (hbody c hc)).1)
    simp only [hmm, List.length_map]
    rw [← padCount_eq l, ← b64encode_eq_body_pad l]
    exact b64decode_b64encode l h
  · rw [hb]
    intro c hc
    rcases List.mem_map.mp hc with ⟨c0, hc0, rfl⟩
    exact (alphabet_urlChar c0 (hbody c0 hc0)).2

/-- Witness for `C10_base64url_roundtrip` at the buffer `[0, 255, 77, 1]`. -/
theorem C10_base64url_roundtrip_witness :
    (∀ b ∈ [0, 255, 77, 1], b < 256) ∧
    (base64UrlToBuffer (bufferToBase64Url [0, 255, 77, 1]) = [0, 255, 77, 1] ∧
      ∀ c ∈ bufferToBase64Url [0, 255, 77, 1], c ≠ '+' ∧ c ≠ '/' ∧ c ≠ '=') :=
  ⟨by decide, C10_base64url_roundtrip [0, 255, 77, 1] (by decide)⟩

/-- C2.  Lead merge: upserting over an existing record (the one `findUnique`
returns for the candidate's email) overwrites `firstName`, `lastName` and
`phone` exactly when the incoming field is non-null and preserves the
stored value when it is null, always overwrites the assigned-agent
reference and the assignment timestamp, and creates no second record for
that email (table size and per-email record count are unchanged). -/
theorem C2_lead_merge (cand : LeadCand) (msgId : Str) (agentId now : Nat)
    (db : Db) (old : LeadRec)
    (hold : db.leads.find? (fun l => decide (l.email = cand.email)) = some old) :
    (∀ x, cand.firstName = some x →
      (upsertLead cand msgId agentId now db).1.firstName = some x) ∧
    (cand.firstName = none →
      (upsertLead cand msgId agentId now db).1.firstName = old.firstName) ∧
    (∀ x, cand.lastName = some x →
      (upsertLead cand msgId agentId now db).1.lastName = some x) ∧
    (cand.lastName = none →
      (upsertLead cand msgId agentId now db).1.lastName = old.lastName) ∧
    (∀ x, cand.phone = some x →
      (upsertLead cand msgId agentId now db).1.phone = some x) ∧
    (cand.phone = none →
      (upsertLead cand msgId agentId now db).1.phone = old.phone) ∧
    (upsertLead cand msgId agentId now db).1.assignedAgentId = agentId ∧
    (upsertLead cand msgId agentId now db).1.assignedAt = now ∧
    (upsertLead cand msgId agentId now db).2.leads.length = db.leads.length ∧
    (upsertLead cand msgId agentId now db).2.leads.countP
        (fun l => decide (l.email = cand.email)) =
      db.leads.countP (fun l => decide (l.email = cand.email)) := by
  have hmail : old.email = cand.email := by
    have := List.find?_some hold
    simpa using this
  simp only [upsertLead, hold]
  refine ⟨fun x hx => by simp [coalesce, hx], fun hx => by simp [coalesce, hx],
    fun x hx => by simp [coalesce, hx], fun hx => by simp [coalesce, hx],
    fun x hx => by simp [coalesce, hx], fun hx => by simp [coalesce, hx],
    trivial, trivial, by simp, ?_⟩
  simp only [List.countP_map]
  apply List.countP_congr
  intro l _
  by_cases hl : l.email = cand.email <;> simp [Function.comp, hl, hmail]

/-- Witness for `C2_lead_merge` on a one-lead table: incoming
`firstName`/`phone` overwrite, null incoming `lastName` preserves. -/
theorem C2_lead_merge_witness :
    (let cand : LeadCand :=
      ⟨"a@b.c".data, some "X".data, none, some "7777777".data, "generic".data⟩
    let old : LeadRec := ⟨0, "a@b.c".data, some "O".data, some "L".data, none,
      "zillow".data, "m0".data, 3, 1, some 5⟩
    let db : Db := ⟨[old], [], [], 1⟩
    (∀ x, cand.firstName = some x →
      (upsertLead cand "m1".data 7 9 db).1.firstName = some x) ∧
    (cand.firstName = none →
      (upsertLead cand "m1".data 7 9 db).1.firstName = old.firstName) ∧
    (∀ x, cand.lastName = some x →
      (upsertLead cand "m1".data 7 9 db).1.lastName = some x) ∧
    (cand.lastName = none →
      (upsertLead cand "m1".data 7 9 db).1.lastName = old.lastName) ∧
    (∀ x, cand.phone = some x →
      (upsertLead cand "m1".data 7 9 db).1.phone = some x) ∧
    (cand.phone = none →
      (upsertLead cand "m1".data 7 9 db).1.phone = old.phone) ∧
    (upsertLead cand "m1".data 7 9 db).1.assignedAgentId = 7 ∧
    (upsertLead cand "m1".data 7 9 db).1.assignedAt = 9 ∧
    (upsertLead cand "m1".data 7 9 db).2.leads.length = db.leads.length ∧
    (upsertLead cand "m1".data 7 9 db).2.leads.countP
        (fun l => decide (l.email = cand.email)) =
      db.leads.countP (fun l => decide (l.email = cand.email))) :=
  C2_lead_merge _ "m1".data 7 9 _ _ (by decide)

/-! ### Bookkeeping lemmas for the processing record (C8) -/

theorem priorAttempts_eq (db : Db) (m : Str) :
    priorAttempts db m =
      ((db.processed.find? (fun p => decide (p.messageId = m))).map
        ProcRec.attempts).getD 0 := by
  unfold priorAttempts findProc
  cases h : db.processed.find? (fun p => decide (p.messageId = m)) <;> simp [h]

theorem find?_map_attempts_eq (l : List ProcRec) (f : ProcRec → ProcRec)
    (q : ProcRec → Bool)
    (hq : ∀ x ∈ l, q (f x) = q x)
    (hg : ∀ x ∈ l, q x = true → (f x).attempts = x.attempts) :
    ((l.map f).find? q).map ProcRec.attempts =
      (l.find? q).map ProcRec.attempts := by
  induction l with
  | nil => rfl
  | cons a t ih =>
    have hqa := hq a (by simp)
    cases hb : q a with
    | true =>
      rw [List.map_cons, List.find?_cons_of_pos _ (by rw [hqa, hb]),
        List.find?_cons_of_pos _ hb]
      simp [hg a (by simp) hb]
    | false =>
      rw [List.map_cons, List.find?_cons_of_neg _ (by rw [hqa, hb]; simp),
        List.find?_cons_of_neg _ (by rw [hb]; simp)]
      exact ih (fun x hx => hq x (by simp [hx]))
        (fun x hx => hg x (by simp [hx]))

theorem priorAttempts_setProcStatus (msgId : Str) (st : PStatus)
    (err : Option Str) (db : Db) (m : Str) :
    priorAttempts (setProcStatus msgId st err db) m = priorAttempts db m := by
  rw [priorAttempts_eq, priorAttempts_eq]
  unfold setProcStatus
  simp only
  rw [find?_map_attempts_eq]
  · intro x _
    by_cases hx : x.messageId = msgId <;> simp [hx]
  · intro x _ _
    by_cases hx : x.messageId = msgId <;> simp [hx]

theorem priorAttempts_setReplySent (i now : Nat) (db : Db) (m : Str) :
    priorAttempts (setReplySent i now db) m = priorAttempts db m := rfl

theorem priorAttempts_upsertLead (cand : LeadCand) (msgId : Str)
    (agentId now : Nat) (db : Db) (m : Str) :
    priorAttempts (upsertLead cand msgId agentId now db).2 m =
      priorAttempts db m := by
  unfold upsertLead
  split <;> rfl

theorem find?_replace_hit (l : List ProcRec) (msgId : Str) (nr : ProcRec)
    (hnr : nr.messageId = msgId)
    (hex : (l.find? (fun p => decide (p.messageId = msgId))).isSome) :
    (l.map (fun p => if p.messageId = msgId then nr else p)).find?
        (fun p => decide (p.messageId = msgId)) = some nr := by
  induction l with
  | nil => simp at hex
  | cons a t ih =>
    by_cases ha : a.messageId = msgId
    · rw [List.map_cons, if_pos ha,
        List.find?_cons_of_pos _ (by simp [hnr])]
    · rw [List.map_cons, if_neg ha,
        List.find?_cons_of_neg _ (by simp [ha])]
      apply ih
      rwa [List.find?_cons_of_neg _ (by simp [ha])] at hex

theorem priorAttempts_setProcessed (db : Db) (rows : List ProcRec) (m : Str) :
    priorAttempts { db with processed := rows } m =
      ((rows.find? (fun p => decide (p.messageId = m))).map
        ProcRec.attempts).getD 0 := by
  rw [priorAttempts_eq]

theorem priorAttempts_markProcessing (now : Nat) (msgId : Str) (db : Db)
    (m : Str) :
    priorAttempts (markProcessing now msgId db) m =
      if m = msgId then priorAttempts db msgId + 1
      else priorAttempts db m := by
  cases hf : findProc db msgId with
  | some p0 =>
    simp only [markProcessing, hf]
    rw [priorAttempts_setProcessed]
    by_cases hm : m = msgId
    · subst hm
      rw [if_pos rfl, find?_replace_hit db.processed m
        ⟨m, priorAttempts db m + 1, now, PStatus.processing, none⟩ rfl
        (by unfold findProc at hf; rw [hf]; rfl)]
      rfl
    · rw [if_neg hm]
      have heq := find?_map_attempts_eq db.processed
        (fun p => if p.messageId = msgId then
          ⟨msgId, priorAttempts db msgId + 1, now, PStatus.processing, none⟩
          else p)
        (fun p => decide (p.messageId = m))
        (by
          intro x _
          by_cases hx : x.messageId = msgId <;> simp [hx])
        (by
          intro x _ hx
          have hxm : x.messageId = m := of_decide_eq_true hx
          by_cases hxm2 : x.messageId = msgId
          · exact absurd (hxm2.symm.trans hxm) (fun h => hm h.symm)
          · simp [hxm2])
      rw [heq]
      exact (priorAttempts_eq db m).symm
  | none =>
    simp only [markProcessing, hf]
    have h1 : db.processed.find? (fun p => decide (p.messageId = msgId)) = none := by
      unfold findProc at hf; exact hf
    rw [priorAttempts_setProcessed, List.find?_append]
    by_cases hm : m = msgId
    · subst hm
      rw [h1]
      simp [priorAttempts_eq, h1]
    · rw [if_neg hm]
      have h2 : ([(⟨msgId, priorAttempts db msgId + 1, now, PStatus.processing,
          none⟩ : ProcRec)]).find? (fun p => decide (p.messageId = m)) = none := by
        simp
        exact fun h => hm h.symm
      rw [h2]
      cases hl : db.processed.find? (fun p => decide (p.messageId = m)) <;>
        simp [priorAttempts_eq, hl]

theorem upsertLead_processed (cand : LeadCand) (msgId : Str)
    (agentId now : Nat) (db : Db) :
    (upsertLead cand msgId agentId now db).2.processed = db.processed := by
  unfold upsertLead
  split <;> rfl

theorem priorAttempts_congr (db db' : Db) (h : db.processed = db'.processed)
    (m : Str) : priorAttempts db m = priorAttempts db' m := by
  rw [priorAttempts_eq, priorAttempts_eq, h]

/-- Across every branch of `processMessage`, the processed-message table
holds the attempt counts written by step 1. -/
theorem processMessage_prior (ext : Ext) (now : Nat) (msgId : Str) (db : Db)
    (m : Str) :
    priorAttempts (processMessage ext now msgId db).1 m =
      priorAttempts (markProcessing now msgId db) m := by
  unfold processMessage
  cases hx : ext.extractResult with
  | error e => simp [hx, failPath, priorAttempts_setProcStatus]
  | ok lead =>
    cases hp : pickAgentRoundRobin now (markProcessing now msgId db).agents with
    | error e => simp [hx, hp, failPath, priorAttempts_setProcStatus]
    | ok pr =>
      obtain ⟨agent, agents'⟩ := pr
      simp only [hx, hp]
      cases hu : upsertLead lead msgId agent.id now
          { markProcessing now msgId db with agents := agents' } with
      | mk upserted db3 =>
        have hdb3 : db3.processed = (markProcessing now msgId db).processed := by
          have h0 := upsertLead_processed lead msgId agent.id now
            { markProcessing now msgId db with agents := agents' }
          rw [hu] at h0
          exact h0
        cases hr : upserted.replySentAt with
        | none =>
          cases hs : ext.sendOk with
          | true =>
            cases ha : ext.ackOk <;>
              simp [hu, hr, hs, finishSuccess, failPath, ha,
                priorAttempts_setProcStatus, priorAttempts_setReplySent,
                priorAttempts_congr _ _ hdb3 m]
          | false =>
            simp [hu, hr, hs, failPath, priorAttempts_setProcStatus,
              priorAttempts_congr _ _ hdb3 m]
        | some t =>
          cases ha : ext.ackOk <;>
            simp [hu, hr, finishSuccess, failPath, ha,
              priorAttempts_setProcStatus, priorAttempts_setReplySent,
              priorAttempts_congr _ _ hdb3 m]

/-- C8.  Processing-record bookkeeping precedes all work: the very first
operation of every `processMessage` invocation is the dead-letter upsert
carrying the incremented attempt counter; the row written by that step
has status PROCESSING, the incremented counter and a cleared error log;
and over any sequence of invocations the recorded attempt counter of
every message never decreases. -/
theorem C8_processing_record_first (ext : Ext) (now : Nat) (msgId : Str)
    (db : Db) :
    ((processMessage ext now msgId db).2.1.head? =
      some (.procMark msgId (priorAttempts db msgId + 1))) ∧
    (findProc (markProcessing now msgId db) msgId =
      some ⟨msgId, priorAttempts db msgId + 1, now, .processing, none⟩) ∧
    (∀ steps : List (Ext × Nat × Str), ∀ m : Str,
      priorAttempts db m ≤ priorAttempts (runSeq steps db) m) := by
  refine ⟨?_, ?_, ?_⟩
  · unfold processMessage
    cases hx : ext.extractResult with
    | error e => simp [hx, failPath]
    | ok lead =>
      cases hp : pickAgentRoundRobin now (markProcessing now msgId db).agents with
      | error e => simp [hx, hp, failPath]
      | ok pr =>
        obtain ⟨agent, agents'⟩ := pr
        simp only [hx, hp]
        cases hu : upsertLead lead msgId agent.id now
            { markProcessing now msgId db with agents := agents' } with
        | mk upserted db3 =>
          cases hr : upserted.replySentAt with
          | none =>
            cases hs : ext.sendOk with
            | true =>
              cases ha : ext.ackOk <;>
                simp [hu, hr, hs, finishSuccess, failPath, ha]
            | false => simp [hu, hr, hs, failPath]
          | some t =>
            cases ha : ext.ackOk <;> simp [hu, hr, finishSuccess, failPath, ha]
  · have hp := priorAttempts_markProcessing now msgId db msgId
    rw [if_pos rfl] at hp
    unfold markProcessing
    cases hf : findProc db msgId with
    | some p0 =>
      simp only
      unfold findProc
      exact find?_replace_hit db.processed msgId
        ⟨msgId, priorAttempts db msgId + 1, now, PStatus.processing, none⟩ rfl
        (by unfold findProc at hf; rw [hf]; rfl)
    | none =>
      simp only
      unfold findProc
      rw [List.find?_append]
      have h1 : db.processed.find? (fun p => decide (p.messageId = msgId)) = none := by
        unfold findProc at hf; exact hf
      rw [h1]
      simp
  · have hstep : ∀ (e : Ext) (n : Nat) (mid : Str) (d : Db) (m : Str),
        priorAttempts d m ≤ priorAttempts (processMessage e n mid d).1 m := by
      intro e n mid d m
      rw [processMessage_prior, priorAttempts_markProcessing]
      by_cases hm : m = mid
      · subst hm; rw [if_pos rfl]; omega
      · rw [if_neg hm]
    intro steps
    induction steps generalizing db with
    | nil => intro m; exact Nat.le_refl _
    | cons s rest ih =>
      intro m
      obtain ⟨e, n, mid⟩ := s
      calc priorAttempts db m ≤ priorAttempts (processMessage e n mid db).1 m :=
            hstep e n mid db m
        _ ≤ priorAttempts (runSeq rest (processMessage e n mid db).1) m :=
            ih (processMessage e n mid db).1 m
        _ = priorAttempts (runSeq (⟨e, n, mid⟩ :: rest) db) m := rfl

/-! ### Round-robin fairness lemmas (C5) -/

theorem tsLeB_refl (x : Option Nat) : tsLeB x x = true := by
  cases x <;> simp [tsLeB]

theorem tsLeB_total (x y : Option Nat) :
    tsLeB x y = true ∨ tsLeB y x = true := by
  cases x <;> cases y <;> simp [tsLeB] <;> omega

theorem tsLeB_trans {x y z : Option Nat} (h1 : tsLeB x y = true)
    (h2 : tsLeB y z = true) : tsLeB x z = true := by
  cases x <;> cases y <;> cases z <;> simp [tsLeB] at * <;> omega

theorem minByTs_eq_none_iff (l : List Agent) : minByTs l = none ↔ l = [] := by
  cases l with
  | nil => simp [minByTs]
  | cons a rest =>
    cases hr : minByTs rest with
    | none => simp [minByTs, hr]
    | some m0 =>
      simp only [minByTs, hr]
      by_cases hc : tsLeB a.lastAssignedAt m0.lastAssignedAt = true <;>
        simp [hc]

theorem minByTs_mem (l : List Agent) (m : Agent) (h : minByTs l = some m) :
    m ∈ l := by
  induction l generalizing m with
  | nil => simp [minByTs] at h
  | cons a rest ih =>
    cases hr : minByTs rest with
    | none =>
      simp only [minByTs, hr] at h
      injection h with h
      subst h
      exact List.mem_cons_self a rest
    | some m0 =>
      simp only [minByTs, hr] at h
      by_cases hc : tsLeB a.lastAssignedAt m0.lastAssignedAt = true
      · rw [if_pos hc] at h
        injection h with h
        subst h
        exact List.mem_cons_self _ _
      · rw [if_neg hc] at h
        injection h with h
        subst h
        exact List.mem_cons_of_mem a (ih m0 hr)

theorem minByTs_min (l : List Agent) (m : Agent) (h : minByTs l = some m) :
    ∀ b ∈ l, tsLeB m.lastAssignedAt b.lastAssignedAt = true := by
  induction l generalizing m with
  | nil => simp [minByTs] at h
  | cons a rest ih =>
    cases hr : minByTs rest with
    | none =>
      have hrest := (minByTs_eq_none_iff rest).mp hr
      subst hrest
      simp only [minByTs] at h
      injection h with h
      subst h
      intro b hb
      simp at hb
      subst hb
      exact tsLeB_refl _
    | some m0 =>
      simp only [minByTs, hr] at h
      intro b hb
      by_cases hc : tsLeB a.lastAssignedAt m0.lastAssignedAt = true
      · rw [if_pos hc] at h
        injection h with h
        subst h
        rcases List.mem_cons.mp hb with rfl | hbr
        · exact tsLeB_refl _
        · exact tsLeB_trans hc (ih m0 hr b hbr)
      · rw [if_neg hc] at h
        injection h with h
        subst h
        rcases List.mem_cons.mp hb with rfl | hbr
        · rcases tsLeB_total b.lastAssignedAt m0.lastAssignedAt with h1 | h1
          · exact absurd h1 hc
          · exact h1
        · exact ih m0 hr b hbr

theorem pick_error_iff (now : Nat) (agents : List Agent) :
    (∃ e, pickAgentRoundRobin now agents = .error e) ↔ actives agents = [] := by
  cases hm : minByTs (agents.filter (·.isActive)) with
  | none =>
    have h0 : actives agents = [] := (minByTs_eq_none_iff _).mp hm
    simp [pickAgentRoundRobin, hm, h0]
  | some a =>
    have hne : ¬ actives agents = [] := by
      intro he
      unfold actives at he
      rw [he] at hm
      simp [minByTs] at hm
    simp [pickAgentRoundRobin, hm, hne]

theorem pick_ok_spec (now : Nat) (agents : List Agent) (a : Agent)
    (rest2 : List Agent)
    (h : pickAgentRoundRobin now agents = .ok (a, rest2)) :
    a ∈ actives agents ∧
    (∀ b ∈ actives agents, tsLeB a.lastAssignedAt b.lastAssignedAt = true) ∧
    rest2 = agents.map (updAgent now a.id) := by
  cases hm : minByTs (agents.filter (·.isActive)) with
  | none => simp [pickAgentRoundRobin, hm] at h
  | some a0 =>
    simp only [pickAgentRoundRobin, hm] at h
    injection h with h
    injection h with h1 h2
    subst h1
    subst h2
    exact ⟨minByTs_mem _ _ hm, minByTs_min _ _ hm, rfl⟩

theorem updAgent_id (now aid : Nat) (x : Agent) :
    (updAgent now aid x).id = x.id := by
  unfold updAgent
  split <;> rfl

theorem updAgent_active (now aid : Nat) (x : Agent) :
    (updAgent now aid x).isActive = x.isActive := by
  unfold updAgent
  split <;> rfl

theorem updAgent_eq_self (now aid : Nat) (x : Agent) (h : ¬ x.id = aid) :
    updAgent now aid x = x := by
  unfold updAgent
  rw [if_neg h]

theorem updAgent_ts (now : Nat) (x : Agent) (h : x.id = aid) :
    (updAgent now aid x).lastAssignedAt = some now := by
  unfold updAgent
  rw [if_pos h]

theorem actives_map_upd (now aid : Nat) (agents : List Agent) :
    actives (agents.map (updAgent now aid)) =
      (actives agents).map (updAgent now aid) := by
  unfold actives
  rw [List.map_filter]
  congr 1
  apply List.filter_congr
  intro x _
  simp [Function.comp, updAgent_active]

theorem ids_map_upd (now aid : Nat) (agents : List Agent) :
    (agents.map (updAgent now aid)).map Agent.id = agents.map Agent.id := by
  rw [List.map_map]
  exact List.map_congr_left (fun x _ => updAgent_id now aid x)

theorem runPicks_spec (times : List Nat) (agents : List Agent)
    (hids : (agents.map Agent.id).Nodup)
    (hsome : ∀ a ∈ actives agents, ∃ v, a.lastAssignedAt = some v)
    (hdisk : (actives agents).Pairwise (fun x y => tsKey x ≠ tsKey y))
    (htp : times.Pairwise (· < ·))
    (hlt : ∀ u ∈ times, ∀ a ∈ actives agents, tsKey a < u)
    (hlen : times.length ≤ (actives agents).length) :
    ∃ sel : List Agent,
      (runPicks times agents).1 = sel.map Except.ok ∧
      sel.length = times.length ∧
      (∀ a ∈ sel, a ∈ actives agents) ∧
      (sel.map Agent.id).Nodup ∧
      sel.Pairwise (fun x y => tsKey x < tsKey y) ∧
      (∀ a ∈ sel, ∀ b ∈ actives agents, b.id ∉ sel.map Agent.id →
        tsKey a < tsKey b) := by
  induction times generalizing agents with
  | nil =>
    exact ⟨[], rfl, rfl, by simp, by simp, by simp, by simp⟩
  | cons t ts ih =>
    have hAne : ¬ actives agents = [] := by
      intro he
      rw [he] at hlen
      simp at hlen
    cases hpick : pickAgentRoundRobin t agents with
    | error e =>
      exact absurd ((pick_error_iff t agents).mp ⟨e, hpick⟩) hAne
    | ok pr =>
      obtain ⟨a, agents2⟩ := pr
      obtain ⟨haA, hamin, rfl⟩ := pick_ok_spec t agents a agents2 hpick
      have hagentsN : agents.Nodup := List.Nodup.of_map _ hids
      have hsubA : actives agents ⊆ agents := fun x hx =>
        List.mem_of_mem_filter hx
      have idInj : ∀ x ∈ agents, ∀ y ∈ agents, x.id = y.id → x = y :=
        fun x hx y hy he => List.inj_on_of_nodup_map hids hx hy he
      have hstrict : ∀ b ∈ actives agents, b ≠ a → tsKey a < tsKey b := by
        intro b hb hba
        obtain ⟨va, hva⟩ := hsome a haA
        obtain ⟨vb, hvb⟩ := hsome b hb
        have hle := hamin b hb
        rw [hva, hvb] at hle
        simp [tsLeB] at hle
        have hne : tsKey b ≠ tsKey a :=
          List.Pairwise.forall (fun x y h => h.symm) hdisk hb haA hba
        unfold tsKey at hne ⊢
        rw [hva, hvb] at hne ⊢
        simp at hne ⊢
        omega
      have hupd_self : ∀ b ∈ agents, b ≠ a → updAgent t a.id b = b := by
        intro b hb hba
        apply updAgent_eq_self
        intro hid
        exact hba (idInj b hb a (hsubA haA) hid)
      have hA2 : actives (agents.map (updAgent t a.id)) =
          (actives agents).map (updAgent t a.id) := actives_map_upd t a.id agents
      have hmemA2 : ∀ b2 ∈ actives (agents.map (updAgent t a.id)),
          ∃ b ∈ actives agents, b2 = updAgent t a.id b := by
        intro b2 hb2
        rw [hA2] at hb2
        rcases List.mem_map.mp hb2 with ⟨b, hb, hbe⟩
        exact ⟨b, hb, hbe.symm⟩
      have htsup : tsKey (updAgent t a.id a) = t := by
        unfold tsKey
        rw [updAgent_ts t a rfl]
        rfl
      have hts_head : ∀ u ∈ ts, t < u := (List.pairwise_cons.mp htp).1
      have hlt_now : ∀ b ∈ actives agents, tsKey b < t :=
        hlt t (List.mem_cons_self t ts) 
      -- induction hypotheses for the updated roster
      have hids2 : ((agents.map (updAgent t a.id)).map Agent.id).Nodup := by
        rw [ids_map_upd]
        exact hids
      have hsome2 : ∀ b2 ∈ actives (agents.map (updAgent t a.id)),
          ∃ v, b2.lastAssignedAt = some v := by
        intro b2 hb2
        rcases hmemA2 b2 hb2 with ⟨b, hb, rfl⟩
        by_cases hba : b = a
        · refine ⟨t, ?_⟩
          rw [hba]
          exact updAgent_ts t a rfl
        · rw [hupd_self b (hsubA hb) hba]
          exact hsome b hb
      have hdisk2 : (actives (agents.map (updAgent t a.id))).Pairwise
          (fun x y => tsKey x ≠ tsKey y) := by
        rw [hA2, List.pairwise_map]
        apply List.Pairwise.imp_of_mem ?_ hdisk
        intro x y hx hy hxy
        by_cases hxa : x = a
        · by_cases hya : y = a
          · rw [hxa, hya] at hxy
            exact absurd rfl hxy
          · rw [hxa, htsup, hupd_self y (hsubA hy) hya]
            have := hlt_now y hy
            omega
        · by_cases hya : y = a
          · rw [hya, htsup, hupd_self x (hsubA hx) hxa]
            have := hlt_now x hx
            omega
          · rw [hupd_self x (hsubA hx) hxa, hupd_self y (hsubA hy) hya]
            exact hxy
      have htp2 : ts.Pairwise (· < ·) := (List.pairwise_cons.mp htp).2
      have hlt2 : ∀ u ∈ ts, ∀ b2 ∈ actives (agents.map (updAgent t a.id)),
          tsKey b2 < u := by
        intro u hu b2 hb2
        rcases hmemA2 b2 hb2 with ⟨b, hb, rfl⟩
        by_cases hba : b = a
        · rw [hba, htsup]
          exact hts_head u hu
        · rw [hupd_self b (hsubA hb) hba]
          exact hlt u (List.mem_cons_of_mem t hu) b hb
      have hlen2 : ts.length ≤ (actives (agents.map (updAgent t a.id))).length := by
        rw [hA2, List.length_map]
        simp at hlen
        omega
      obtain ⟨sel2, hmap2, hlen2', hmem2, hnodup2, hpair2, hbdy2⟩ :=
        ih (agents.map (updAgent t a.id)) hids2 hsome2 hdisk2 htp2 hlt2 hlen2
      -- the just-updated agent is never picked again within this pass
      have hA2idsN : ((actives (agents.map (updAgent t a.id))).map Agent.id).Nodup := by
        apply List.Nodup.sublist _ hids2
        exact (List.filter_sublist _).map _
      have ha2mem : updAgent t a.id a ∈ actives (agents.map (updAgent t a.id)) := by
        rw [hA2]
        exact List.mem_map_of_mem _ haA
      have haid_not : a.id ∉ sel2.map Agent.id := by
        intro hin
        rcases List.mem_map.mp hin with ⟨x2, hx2, hx2id⟩
        have hx2A2 := hmem2 x2 hx2
        have hx2eq : x2 = updAgent t a.id a := by
          apply List.inj_on_of_nodup_map hA2idsN hx2A2 ha2mem
          rw [hx2id, updAgent_id]
        have hcard : (sel2.map Agent.id).length <
            ((actives (agents.map (updAgent t a.id))).map Agent.id).length := by
          rw [List.length_map, List.length_map, hlen2', hA2, List.length_map]
          simp at hlen
          omega
        have hsub : sel2.map Agent.id ⊆
            (actives (agents.map (updAgent t a.id))).map Agent.id := by
          intro i hi
          rcases List.mem_map.mp hi with ⟨x, hx, rfl⟩
          exact List.mem_map_of_mem _ (hmem2 x hx)
        have hex : ∃ i ∈ (actives (agents.map (updAgent t a.id))).map Agent.id,
            i ∉ sel2.map Agent.id := by
          by_contra hc
          push_neg at hc
          have hsub2 : (actives (agents.map (updAgent t a.id))).map Agent.id ⊆
              sel2.map Agent.id := hc
          have := (List.subperm_of_subset hA2idsN hsub2).length_le
          omega
        rcases hex with ⟨i, hiA2, hinot⟩
        rcases List.mem_map.mp hiA2 with ⟨b2, hb2, rfl⟩
        have hbdy := hbdy2 x2 hx2 b2 hb2 hinot
        rcases hmemA2 b2 hb2 with ⟨b, hb, rfl⟩
        by_cases hba : b = a
        · apply hinot
          rw [hba, updAgent_id, ← hx2id]
          exact List.mem_map_of_mem _ hx2
        · rw [hupd_self b (hsubA hb) hba] at hbdy
          rw [hx2eq, htsup] at hbdy
          have := hlt_now b hb
          omega
      have hselmem : ∀ x ∈ sel2, x ∈ actives agents := by
        intro x hx
        rcases hmemA2 x (hmem2 x hx) with ⟨b, hb, rfl⟩
        by_cases hba : b = a
        · exfalso
          apply haid_not
          have hbid : (updAgent t a.id b).id = a.id := by
            rw [hba, updAgent_id]
          rw [← hbid]
          exact List.mem_map_of_mem _ hx
        · rw [hupd_self b (hsubA hb) hba]
          exact hb
      have hselne : ∀ x ∈ sel2, x ≠ a := by
        intro x hx hxa
        subst hxa
        exact haid_not (List.mem_map_of_mem _ hx)
      refine ⟨a :: sel2, ?_, ?_, ?_, ?_, ?_, ?_⟩
      · simp only [runPicks, hpick, hmap2, List.map_cons]
      · simp [hlen2']
      · intro x hx
        rcases List.mem_cons.mp hx with rfl | hx2
        · exact haA
        · exact hselmem x hx2
      · rw [List.map_cons, List.nodup_cons]
        exact ⟨haid_not, hnodup2⟩
      · rw [List.pairwise_cons]
        refine ⟨?_, hpair2⟩
        intro x hx
        exact hstrict x (hselmem x hx) (hselne x hx)
      · intro x hx b hbA hbnot
        rw [List.map_cons, List.mem_cons] at hbnot
        push_neg at hbnot
        obtain ⟨hbid_ne, hbnot2⟩ := hbnot
        have hba : b ≠ a := fun he => hbid_ne (by rw [he])
        have hbA2 : b ∈ actives (agents.map (updAgent t a.id)) := by
          rw [hA2]
          have hbu : b = updAgent t a.id b := (hupd_self b (hsubA hbA) hba).symm
          rw [hbu]
          exact List.mem_map_of_mem _ hbA
        rcases List.mem_cons.mp hx with rfl | hx2
        · exact hstrict b hbA hba
        · exact hbdy2 x hx2 b hbA2 hbnot2

/-- C5.  Round-robin fairness: for a roster with distinct row ids whose
active recipients carry pairwise-distinct (comparable) last-assigned
timestamps, N consecutive selections at strictly increasing times later
than every stored timestamp return every active recipient exactly once
(as pre-update snapshots), in ascending order of their prior timestamps,
and never an inactive recipient; and a selection fails with the
no-eligible-recipient error exactly when the active set is empty. -/
theorem C5_round_robin_fairness (times : List Nat) (agents : List Agent)
    (hids : (agents.map Agent.id).Nodup)
    (hsome : ∀ a ∈ actives agents, ∃ v, a.lastAssignedAt = some v)
    (hdisk : (actives agents).Pairwise (fun x y => tsKey x ≠ tsKey y))
    (htp : times.Pairwise (· < ·))
    (hlt : ∀ u ∈ times, ∀ a ∈ actives agents, tsKey a < u)
    (hlen : times.length = (actives agents).length) :
    (∃ sel : List Agent,
      (runPicks times agents).1 = sel.map Except.ok ∧
      (sel.map Agent.id).Perm ((actives agents).map Agent.id) ∧
      sel.Pairwise (fun x y => tsKey x < tsKey y) ∧
      (∀ a ∈ sel, a ∈ agents ∧ a.isActive = true)) ∧
    (∀ (t2 : Nat) (ag2 : List Agent),
      (∃ e, pickAgentRoundRobin t2 ag2 = .error e) ↔ actives ag2 = []) := by
  constructor
  · obtain ⟨sel, hmap, hlen', hmem, hnodup, hpair, hbdy⟩ :=
      runPicks_spec times agents hids hsome hdisk htp hlt (le_of_eq hlen)
    refine ⟨sel, hmap, ?_, hpair, ?_⟩
    · have hsub : sel.map Agent.id ⊆ (actives agents).map Agent.id := by
        intro i hi
        rcases List.mem_map.mp hi with ⟨x, hx, rfl⟩
        exact List.mem_map_of_mem _ (hmem x hx)
      apply (List.subperm_of_subset hnodup hsub).perm_of_length_le
      rw [List.length_map, List.length_map, hlen', hlen]
    · intro a ha
      have := hmem a ha
      unfold actives at this
      exact List.mem_filter.mp this
  · exact pick_error_iff

/-- Witness for `C5_round_robin_fairness`: a three-row roster (two active
with timestamps 10 and 5, one inactive) and two selection times 100, 200. -/
theorem C5_round_robin_fairness_witness :
    (let a1 : Agent := ⟨1, "A".data, "a@x.co".data, none, true, 2, some 10⟩
    let a2 : Agent := ⟨2, "B".data, "b@x.co".data, none, true, 1, some 5⟩
    let a3 : Agent := ⟨3, "C".data, "c@x.co".data, none, false, 0, none⟩
    (∃ sel : List Agent,
      (runPicks [100, 200] [a1, a2, a3]).1 = sel.map Except.ok ∧
      (sel.map Agent.id).Perm ((actives [a1, a2, a3]).map Agent.id) ∧
      sel.Pairwise (fun x y => tsKey x < tsKey y) ∧
      (∀ a ∈ sel, a ∈ [a1, a2, a3] ∧ a.isActive = true)) ∧
    (∀ (t2 : Nat) (ag2 : List Agent),
      (∃ e, pickAgentRoundRobin t2 ag2 = .error e) ↔ actives ag2 = [])) := by
  refine C5_round_robin_fairness [100, 200] _ (by decide) ?_ (by decide)
    (by decide) (by decide) (by decide)
  intro a ha
  simp only [actives] at ha
  have hf : ([⟨1, "A".data, "a@x.co".data, none, true, 2, some 10⟩,
      ⟨2, "B".data, "b@x.co".data, none, true, 1, some 5⟩,
      ⟨3, "C".data, "c@x.co".data, none, false, 0, none⟩] :
        List Agent).filter (·.isActive) =
      [⟨1, "A".data, "a@x.co".data, none, true, 2, some 10⟩,
       ⟨2, "B".data, "b@x.co".data, none, true, 1, some 5⟩] := by decide
  rw [hf] at ha
  rcases List.mem_cons.mp ha with rfl | ha2
  · exact ⟨10, rfl⟩
  · rcases List.mem_cons.mp ha2 with rfl | ha3
    · exact ⟨5, rfl⟩
    · simp at ha3

/-! ### Idempotent-reply lemmas (C1) -/

theorem markProcessing_leads (now : Nat) (msgId : Str) (db : Db) :
    (markProcessing now msgId db).leads = db.leads := by
  unfold markProcessing
  split <;> rfl

theorem markProcessing_agents (now : Nat) (msgId : Str) (db : Db) :
    (markProcessing now msgId db).agents = db.agents := by
  unfold markProcessing
  split <;> rfl

theorem storedReply_congr (db1 db2 : Db) (email : Str)
    (h : db1.leads = db2.leads) :
    storedReply db1 email = storedReply db2 email := by
  unfold storedReply
  rw [h]

theorem upsertLead_fst_replySent (cand : LeadCand) (msgId : Str)
    (agentId now : Nat) (db : Db) :
    (upsertLead cand msgId agentId now db).1.replySentAt =
      storedReply db cand.email := by
  unfold storedReply
  cases hf : db.leads.find? (fun l => decide (l.email = cand.email)) <;>
    simp [upsertLead, hf]

theorem upsertLead_post (cand : LeadCand) (msgId : Str) (agentId now : Nat)
    (db : Db) :
    (∀ l ∈ (upsertLead cand msgId agentId now db).2.leads,
      l.email = cand.email →
      l.id = (upsertLead cand msgId agentId now db).1.id ∧
      l.replySentAt = (upsertLead cand msgId agentId now db).1.replySentAt) ∧
    (∃ l ∈ (upsertLead cand msgId agentId now db).2.leads,
      l.email = cand.email) := by
  cases hf : db.leads.find? (fun l => decide (l.email = cand.email)) with
  | some old =>
    have hom : old.email = cand.email := by simpa using List.find?_some hf
    have homem : old ∈ db.leads := List.mem_of_find?_eq_some hf
    constructor
    · intro l hl hle
      simp only [upsertLead, hf] at hl ⊢
      rcases List.mem_map.mp hl with ⟨l0, hl0, rfl⟩
      by_cases h0 : l0.email = cand.email
      · simp only [if_pos h0]
        constructor <;> first
          | rfl
          | trivial
      · simp only [if_neg h0] at hle
        exact absurd hle h0
    · simp only [upsertLead, hf]
      refine ⟨_, List.mem_map_of_mem _ homem, ?_⟩
      simp only [if_pos hom]
      exact hom
  | none =>
    constructor
    · intro l hl hle
      simp only [upsertLead, hf] at hl ⊢
      rcases List.mem_append.mp hl with h1 | h2
      · have hnm := List.find?_eq_none.mp hf l h1
        simp [hle] at hnm
      · simp at h2
        subst h2
        exact ⟨rfl, rfl⟩
    · simp only [upsertLead, hf]
      refine ⟨⟨db.nextLeadId, cand.email, cand.firstName, cand.lastName,
        cand.phone, cand.source, msgId, agentId, now, none⟩, ?_, rfl⟩
      exact List.mem_append_right _ (by simp)

theorem countSends_append (a b : List Event) :
    countSends (a ++ b) = countSends a + countSends b := by
  unfold countSends
  exact List.countP_append _ _ _

theorem setProcStatus_leads (msgId : Str) (st : PStatus) (err : Option Str)
    (db : Db) : (setProcStatus msgId st err db).leads = db.leads := rfl

theorem setReplySent_stamp (i now : Nat) (db : Db) (em : Str)
    (hall : ∀ l ∈ db.leads, l.email = em → l.id = i) :
    ∀ l ∈ (setReplySent i now db).leads, l.email = em →
      l.replySentAt = some now := by
  intro l hl hle
  unfold setReplySent at hl
  simp only at hl
  rcases List.mem_map.mp hl with ⟨l0, hl0, rfl⟩
  by_cases h0 : l0.id = i
  · simp [if_pos h0]
  · simp only [if_neg h0] at hle ⊢
    exact absurd (hall l0 hl0 hle) h0

theorem setReplySent_exists (i now : Nat) (db : Db) (em : Str)
    (hx : ∃ l ∈ db.leads, l.email = em) :
    ∃ l ∈ (setReplySent i now db).leads, l.email = em := by
  rcases hx with ⟨l0, hl0, hle⟩
  unfold setReplySent
  simp only
  refine ⟨_, List.mem_map_of_mem _ hl0, ?_⟩
  by_cases h0 : l0.id = i
  · simp [if_pos h0, hle]
  · simp [if_neg h0, hle]

theorem countSends_zero_of_replySet (ext : Ext) (now : Nat) (msgId : Str)
    (db : Db) (lead : LeadCand)
    (hex : ext.extractResult = .ok lead)
    (hpost : ∀ l ∈ db.leads, l.email = lead.email → l.replySentAt ≠ none)
    (hexists : ∃ l ∈ db.leads, l.email = lead.email) :
    countSends (processMessage ext now msgId db).2.1 = 0 := by
  cases hp : pickAgentRoundRobin now (markProcessing now msgId db).agents with
  | error e =>
    simp [processMessage, hex, hp, failPath, countSends, List.countP_cons]
  | ok pr =>
    obtain ⟨agent, agents2⟩ := pr
    cases hu : upsertLead lead msgId agent.id now
        { markProcessing now msgId db with agents := agents2 } with
    | mk upserted db3 =>
      have hrep : upserted.replySentAt = storedReply db lead.email := by
        have h1 := upsertLead_fst_replySent lead msgId agent.id now
          { markProcessing now msgId db with agents := agents2 }
        rw [hu] at h1
        rw [h1]
        exact storedReply_congr _ _ _ (markProcessing_leads now msgId db)
      have hsr : storedReply db lead.email ≠ none := by
        rcases hexists with ⟨l0, hl0, hl0e⟩
        unfold storedReply
        cases hf : db.leads.find? (fun l => decide (l.email = lead.email)) with
        | none =>
          have hc := List.find?_eq_none.mp hf l0 hl0
          simp [hl0e] at hc
        | some lf =>
          have hmem := List.mem_of_find?_eq_some hf
          have hmail : lf.email = lead.email := by
            simpa using List.find?_some hf
          exact hpost lf hmem hmail
      cases hr : upserted.replySentAt with
      | none => rw [hr] at hrep; exact absurd hrep.symm hsr
      | some t =>
        cases ha : ext.ackOk <;>
          simp [processMessage, hex, hp, hu, hr, ha, finishSuccess, failPath,
            countSends, List.countP_append, List.countP_cons]

/-- C1.  Idempotent reply: in a run that reaches step 5 (extraction and
assignment both succeeded), the acknowledgment send happens if and only
if the reply-sent timestamp stored for the extracted email is null at
that point; after a send the final state stamps every row carrying that
email with the send time; reprocessing the same message after a fully
successful run performs no outbound send; and when the first run started
from a null timestamp, exactly one send happens across the two runs. -/
theorem C1_idempotent_reply (ext1 ext2 : Ext) (now1 now2 : Nat)
    (msgId1 msgId2 : Str) (db : Db) (lead : LeadCand)
    (agent : Agent) (agents2 : List Agent)
    (hex1 : ext1.extractResult = .ok lead)
    (hex2 : ext2.extractResult = .ok lead)
    (hag : pickAgentRoundRobin now1 db.agents = .ok (agent, agents2)) :
    (countSends (processMessage ext1 now1 msgId1 db).2.1 =
      if storedReply db lead.email = none then 1 else 0) ∧
    (storedReply db lead.email = none → ext1.sendOk = true →
      ∀ l ∈ (processMessage ext1 now1 msgId1 db).1.leads,
        l.email = lead.email → l.replySentAt = some now1) ∧
    ((processMessage ext1 now1 msgId1 db).2.2.success = true →
      countSends (processMessage ext2 now2 msgId2
        (processMessage ext1 now1 msgId1 db).1).2.1 = 0) ∧
    ((processMessage ext1 now1 msgId1 db).2.2.success = true →
      storedReply db lead.email = none →
      countSends (processMessage ext1 now1 msgId1 db).2.1 +
        countSends (processMessage ext2 now2 msgId2
          (processMessage ext1 now1 msgId1 db).1).2.1 = 1) := by
  have hag2 : pickAgentRoundRobin now1 (markProcessing now1 msgId1 db).agents =
      .ok (agent, agents2) := by
    rw [markProcessing_agents]
    exact hag
  cases hu : upsertLead lead msgId1 agent.id now1
      { markProcessing now1 msgId1 db with agents := agents2 } with
  | mk upserted db3 =>
    have hrep : upserted.replySentAt = storedReply db lead.email := by
      have h1 := upsertLead_fst_replySent lead msgId1 agent.id now1
        { markProcessing now1 msgId1 db with agents := agents2 }
      rw [hu] at h1
      rw [h1]
      exact storedReply_congr _ _ _ (markProcessing_leads now1 msgId1 db)
    have hpost3 := upsertLead_post lead msgId1 agent.id now1
      { markProcessing now1 msgId1 db with agents := agents2 }
    rw [hu] at hpost3
    obtain ⟨hall3, hex3⟩ := hpost3
    have partA : countSends (processMessage ext1 now1 msgId1 db).2.1 =
        if storedReply db lead.email = none then 1 else 0 := by
      cases hsr : storedReply db lead.email with
      | none =>
        have hr : upserted.replySentAt = none := by rw [hrep, hsr]
        cases hs : ext1.sendOk with
        | true =>
          cases ha : ext1.ackOk <;>
            simp [processMessage, hex1, hag2, hu, hr, hs, ha, finishSuccess,
              failPath, countSends, List.countP_append, List.countP_cons]
        | false =>
          simp [processMessage, hex1, hag2, hu, hr, hs, failPath,
            countSends, List.countP_append, List.countP_cons]
      | some t =>
        have hr : upserted.replySentAt = some t := by rw [hrep, hsr]
        cases ha : ext1.ackOk <;>
          simp [processMessage, hex1, hag2, hu, hr, ha, finishSuccess,
            failPath, countSends, List.countP_append, List.countP_cons]
    have hleads_sent : ext1.sendOk = true → upserted.replySentAt = none →
        (processMessage ext1 now1 msgId1 db).1.leads =
          (setReplySent upserted.id now1 db3).leads := by
      intro hs hr
      cases ha : ext1.ackOk <;>
        simp [processMessage, hex1, hag2, hu, hr, hs, ha, finishSuccess,
          failPath, setProcStatus_leads]
    have partB : storedReply db lead.email = none → ext1.sendOk = true →
        ∀ l ∈ (processMessage ext1 now1 msgId1 db).1.leads,
          l.email = lead.email → l.replySentAt = some now1 := by
      intro hsr hs
      have hr : upserted.replySentAt = none := by rw [hrep, hsr]
      intro l hl hle
      rw [hleads_sent hs hr] at hl
      exact setReplySent_stamp upserted.id now1 db3 lead.email
        (fun l0 h0 he => (hall3 l0 h0 he).1) l hl hle
    have partC : (processMessage ext1 now1 msgId1 db).2.2.success = true →
        countSends (processMessage ext2 now2 msgId2
          (processMessage ext1 now1 msgId1 db).1).2.1 = 0 := by
      intro hsucc
      apply countSends_zero_of_replySet ext2 now2 msgId2 _ lead hex2
      case hpost =>
        intro l hl hle
        cases hr : upserted.replySentAt with
        | none =>
          cases hs : ext1.sendOk with
          | false =>
            simp [processMessage, hex1, hag2, hu, hr, hs, failPath] at hsucc
          | true =>
            rw [hleads_sent hs hr] at hl
            rw [setReplySent_stamp upserted.id now1 db3 lead.email
              (fun l0 h0 he => (hall3 l0 h0 he).1) l hl hle]
            simp
        | some t =>
          have hleads3 : (processMessage ext1 now1 msgId1 db).1.leads =
              db3.leads := by
            cases ha : ext1.ackOk <;>
              simp [processMessage, hex1, hag2, hu, hr, ha, finishSuccess,
                failPath, setProcStatus_leads]
          rw [hleads3] at hl
          rw [(hall3 l hl hle).2, hr]
          simp
      case hexists =>
        cases hr : upserted.replySentAt with
        | none =>
          cases hs : ext1.sendOk with
          | false =>
            simp [processMessage, hex1, hag2, hu, hr, hs, failPath] at hsucc
          | true =>
            rw [hleads_sent hs hr]
            exact setReplySent_exists upserted.id now1 db3 lead.email hex3
        | some t =>
          have hleads3 : (processMessage ext1 now1 msgId1 db).1.leads =
              db3.leads := by
            cases ha : ext1.ackOk <;>
              simp [processMessage, hex1, hag2, hu, hr, ha, finishSuccess,
                failPath, setProcStatus_leads]
          rw [hleads3]
          exact hex3
    refine ⟨partA, partB, partC, ?_⟩
    intro hsucc hsr
    rw [partA, partC hsucc, hsr]
    simp

/-- Witness for `C1_idempotent_reply`: one active agent, an empty lead
table, a fully successful first run at time 1 and a second run at
time 2. -/
theorem C1_idempotent_reply_witness :
    (let ag : Agent := ⟨1, "A".data, "a@x.co".data, none, true, 0, none⟩
    let cand : LeadCand := ⟨"l@x.co".data, none, none, none, "generic".data⟩
    let ex : Ext := ⟨.ok cand, true, true⟩
    let db0 : Db := ⟨[], [], [ag], 0⟩
    (countSends (processMessage ex 1 "m1".data db0).2.1 =
      if storedReply db0 cand.email = none then 1 else 0) ∧
    (storedReply db0 cand.email = none → ex.sendOk = true →
      ∀ l ∈ (processMessage ex 1 "m1".data db0).1.leads,
        l.email = cand.email → l.replySentAt = some 1) ∧
    ((processMessage ex 1 "m1".data db0).2.2.success = true →
      countSends (processMessage ex 2 "m1".data
        (processMessage ex 1 "m1".data db0).1).2.1 = 0) ∧
    ((processMessage ex 1 "m1".data db0).2.2.success = true →
      storedReply db0 cand.email = none →
      countSends (processMessage ex 1 "m1".data db0).2.1 +
        countSends (processMessage ex 2 "m1".data
          (processMessage ex 1 "m1".data db0).1).2.1 = 1)) :=
  C1_idempotent_reply _ _ 1 2 "m1".data "m1".data _ _
    ⟨1, "A".data, "a@x.co".data, none, true, 0, none⟩
    [⟨1, "A".data, "a@x.co".data, none, true, 1, some 1⟩]
    rfl rfl rfl

/-! ### Recognizer-chain lemmas (C3, C4) -/

theorem local_imp_loose (c : Char) (h : isLocalChar c = true) :
    isLooseChar c = true := by
  unfold isLocalChar isLetterChar isDigitChar at h
  unfold isLooseChar isSpaceChar
  simp at h ⊢
  omega

theorem domain_imp_loose (c : Char) (h : isDomainChar c = true) :
    isLooseChar c = true := by
  unfold isDomainChar isLetterChar isDigitChar at h
  unfold isLooseChar isSpaceChar
  simp at h ⊢
  omega

theorem takeWhile_split {α} (p q : α → Bool)
    (himp : ∀ c, p c = true → q c = true) (l : List α) :
    List.takeWhile q l =
      List.takeWhile p l ++ List.takeWhile q (List.dropWhile p l) ∧
    List.dropWhile q l = List.dropWhile q (List.dropWhile p l) := by
  induction l with
  | nil => simp
  | cons c rest ih =>
    cases hp : p c with
    | true =>
      have hq := himp c hp
      simp [List.takeWhile_cons, List.dropWhile_cons, hp, hq, ih]
    | false => simp [List.takeWhile_cons, List.dropWhile_cons, hp]

theorem dropWhile_eq_self_of_head {α} (q : α → Bool) (l : List α)
    (h : List.takeWhile q l = []) : List.dropWhile q l = l := by
  cases l with
  | nil => rfl
  | cons c rest =>
    rw [List.takeWhile_cons] at h
    cases hq : q c with
    | true => rw [hq] at h; simp at h
    | false => simp [List.dropWhile_cons, hq]

theorem lastSatisfying_spec (valid : Nat → Bool) (idxs : List Nat) (p : Nat)
    (h : lastSatisfying valid idxs = some p) :
    p ∈ idxs ∧ valid p = true := by
  unfold lastSatisfying at h
  have haux : ∀ (l : List Nat) (acc : Option Nat),
      l.foldl (fun acc p => if valid p then some p else acc) acc = some p →
      acc = some p ∨ (p ∈ l ∧ valid p = true) := by
    intro l
    induction l with
    | nil => intro acc hacc; exact Or.inl hacc
    | cons i rest ih =>
      intro acc hacc
      rw [List.foldl_cons] at hacc
      rcases ih _ hacc with hacc2 | hrest
      · have hacc3 : (if valid i = true then some i else acc) = some p := hacc2
        by_cases hv : valid i = true
        · rw [if_pos hv] at hacc3
          injection hacc3 with he
          exact Or.inr ⟨by simp [he], he ▸ hv⟩
        · rw [if_neg hv] at hacc3
          exact Or.inl hacc3
      · exact Or.inr ⟨List.mem_cons_of_mem i hrest.1, hrest.2⟩
  rcases haux _ _ h with h1 | h2
  · simp at h1
  · exact h2

theorem getD_of_append_lt {α} (l1 l2 : List α) (n : Nat) (d : α)
    (h : n < l1.length) : (l1 ++ l2).getD n d = l1.getD n d :=
  List.getD_append l1 l2 d n h

theorem matchEmailAt_imp_loose (l : Str) (h : (matchEmailAt l).isSome) :
    (looseMatchAt l).isSome := by
  by_cases hloc : (l.takeWhile isLocalChar).isEmpty
  · simp [matchEmailAt, hloc] at h
  · cases hd : l.dropWhile isLocalChar with
    | nil => simp [matchEmailAt, hloc, hd] at h
    | cons c0 r2 =>
      by_cases hc0 : c0 = '@'
      · subst hc0
        cases hsplit : lastSatisfying
            (validEmailSplit (r2.takeWhile isDomainChar))
            (List.range (r2.takeWhile isDomainChar).length) with
        | none => simp [matchEmailAt, hloc, hd, hsplit] at h
        | some p =>
          obtain ⟨hpmem, hpvalid⟩ := lastSatisfying_spec _ _ _ hsplit
          unfold validEmailSplit at hpvalid
          simp only [Bool.and_eq_true, decide_eq_true_eq] at hpvalid
          obtain ⟨⟨⟨⟨hp1, hdot⟩, hlet1⟩, hlet2⟩, hlen⟩ := hpvalid
          have hsp := takeWhile_split isLocalChar isLooseChar local_imp_loose l
          have hat : List.takeWhile isLooseChar (l.dropWhile isLocalChar) = [] := by
            rw [hd, List.takeWhile_cons]
            have h64 : isLooseChar '@' = false := by decide
            rw [h64]
            rfl
          have hA : l.takeWhile isLooseChar = l.takeWhile isLocalChar := by
            rw [hsp.1, hat, List.append_nil]
          have hDrop : l.dropWhile isLooseChar = '@' :: r2 := by
            rw [hsp.2, hd]
            apply dropWhile_eq_self_of_head
            rw [List.takeWhile_cons]
            have h64 : isLooseChar '@' = false := by decide
            rw [h64]
            rfl
          have hsp2 := takeWhile_split isDomainChar isLooseChar domain_imp_loose r2
          have hR : r2.takeWhile isLooseChar =
              r2.takeWhile isDomainChar ++
                List.takeWhile isLooseChar (r2.dropWhile isDomainChar) :=
            hsp2.1
          have hdotR : hasInnerDot (r2.takeWhile isLooseChar) = true := by
            unfold hasInnerDot
            rw [List.any_eq_true]
            refine ⟨p, List.mem_range.mpr ?_, ?_⟩
            · rw [hR, List.length_append]
              omega
            · simp only [Bool.and_eq_true, decide_eq_true_eq]
              refine ⟨⟨?_, ?_⟩, ?_⟩
              · omega
              · rw [hR, List.length_append]
                omega
              · rw [hR, getD_of_append_lt _ _ _ _ (by omega)]
                exact hdot
          simp [looseMatchAt, hA, hloc, hDrop, hdotR]
      · simp [matchEmailAt, hloc, hd, hc0] at h

theorem containsLoose_suffix_none (l : Str) (h : containsLooseEmail l = false)
    (s : Str) (hs : s <:+ l) : looseMatchAt s = none := by
  unfold containsLooseEmail at h
  rw [Bool.eq_false_iff, Ne, List.any_eq_true] at h
  cases hm : looseMatchAt s with
  | none => rfl
  | some cap =>
    exfalso
    exact h ⟨s, (List.mem_tails _ _).mpr hs, by rw [hm]; rfl⟩

theorem scanEmailsAux_nil (fuel : Nat) (l : Str)
    (h : ∀ s, s <:+ l → matchEmailAt s = none) :
    scanEmailsAux fuel l = [] := by
  induction fuel generalizing l with
  | zero => rfl
  | succ n ih =>
    cases l with
    | nil => rfl
    | cons c rest =>
      rw [scanEmailsAux, h (c :: rest) (List.suffix_refl _)]
      exact ih rest (fun s hs => h s (hs.trans (List.suffix_cons c rest)))

theorem extractEmails_nil (text : Str) (h : containsLooseEmail text = false) :
    extractEmails text = [] := by
  unfold extractEmails
  rw [scanEmailsAux_nil text.length text ?hmatch]
  · rfl
  case hmatch =>
    intro s hs
    cases hm : matchEmailAt s with
    | none => rfl
    | some pr =>
      exfalso
      have hl := matchEmailAt_imp_loose s (by rw [hm]; rfl)
      rw [containsLoose_suffix_none text h s hs] at hl
      simp at hl

theorem stripLabelCI_suffix (lbl l r : Str) (h : stripLabelCI lbl l = some r) :
    r <:+ l := by
  induction lbl generalizing l with
  | nil =>
    unfold stripLabelCI at h
    injection h with h
    exact h ▸ List.suffix_refl _
  | cons lc0 lrest ih =>
    cases l with
    | nil => simp [stripLabelCI] at h
    | cons c crest =>
      unfold stripLabelCI at h
      by_cases hc : lcChar c = lc0
      · rw [if_pos hc] at h
        exact (ih crest h).trans (List.suffix_cons c crest)
      · rw [if_neg hc] at h
        exact absurd h (by simp)

theorem tryLabelsAt_none (lbls : List Str) (l : Str)
    (h : ∀ s, s <:+ l → looseMatchAt s = none) :
    tryLabelsAt lbls l = none := by
  induction lbls with
  | nil => rfl
  | cons lbl rest ih =>
    unfold tryLabelsAt tryLabelAt
    cases hst : stripLabelCI lbl l with
    | none => exact ih
    | some r =>
      have hr : r.dropWhile isSpaceChar <:+ l :=
        (List.dropWhile_suffix _).trans (stripLabelCI_suffix lbl l r hst)
      show (match looseMatchAt (List.dropWhile isSpaceChar r) with
        | some cap => some cap
        | none => tryLabelsAt rest l) = none
      rw [h _ hr]
      exact ih

theorem findLabeled_none (lbls : List Str) (text : Str)
    (h : ∀ s, s <:+ text → looseMatchAt s = none) :
    findLabeled lbls text = none := by
  unfold findLabeled
  generalize hfuel : text.length = fuel
  clear hfuel
  induction fuel generalizing text with
  | zero => rfl
  | succ n ih =>
    cases text with
    | nil => rfl
    | cons c rest =>
      rw [findLabeledAux, tryLabelsAt_none lbls (c :: rest) h]
      exact ih rest (fun s hs => h s (hs.trans (List.suffix_cons c rest)))

theorem labeledEmailFrom_none (pats : List (List Str)) (text : Str)
    (h : ∀ s, s <:+ text → looseMatchAt s = none) :
    labeledEmailFrom pats text = none := by
  induction pats with
  | nil => rfl
  | cons lbls rest ih =>
    unfold labeledEmailFrom
    rw [findLabeled_none lbls text h]
    exact ih

theorem parsers_none_of_no_email (text subject : Str)
    (h : containsLooseEmail text = false) :
    parseZillowLead text subject = none ∧
    parseRealtorLead text subject = none ∧
    parseFacebookLead text subject = none ∧
    parseGenericLead text subject = none := by
  have hloose := containsLoose_suffix_none text h
  have hlab := fun pats => labeledEmailFrom_none pats text hloose
  have hext := extractEmails_nil text h
  refine ⟨?_, ?_, ?_, ?_⟩
  · unfold parseZillowLead
    rw [hlab, hext]
    split <;> rfl
  · unfold parseRealtorLead
    rw [hlab, hext]
    split <;> rfl
  · unfold parseFacebookLead
    rw [hlab, hext]
    split <;> rfl
  · unfold parseGenericLead
    rw [hext]
    rfl

theorem ofNat_toNat_small : ∀ n, n ≤ 200 → (Char.ofNat n).toNat = n := by
  decide

theorem lcChar_idem (c : Char) : lcChar (lcChar c) = lcChar c := by
  unfold lcChar
  by_cases h : 65 ≤ c.toNat ∧ c.toNat ≤ 90
  · rw [if_pos h]
    have ht : (Char.ofNat (c.toNat + 32)).toNat = c.toNat + 32 :=
      ofNat_toNat_small _ (by omega)
    rw [if_neg (by rw [ht]; omega)]
  · rw [if_neg h, if_neg h]

theorem lcStr_idem (s : Str) : lcStr (lcStr s) = lcStr s := by
  unfold lcStr
  rw [List.map_map]
  exact List.map_congr_left (fun c _ => lcChar_idem c)

theorem mem_dedupFirst (l : List Str) (x : Str) (h : x ∈ dedupFirst l) :
    x ∈ l := by
  unfold dedupFirst at h
  have haux : ∀ (l2 : List Str) (acc : List Str),
      x ∈ l2.foldl (fun acc y => if y ∈ acc then acc else acc ++ [y]) acc →
      x ∈ acc ∨ x ∈ l2 := by
    intro l2
    induction l2 with
    | nil => intro acc hx; exact Or.inl hx
    | cons a rest ih =>
      intro acc hx
      rw [List.foldl_cons] at hx
      rcases ih _ hx with hacc | hrest
      · by_cases ha : a ∈ acc
        · simp only [ha, if_true] at hacc
          exact Or.inl hacc
        · simp only [ha, if_false] at hacc
          rcases List.mem_append.mp hacc with h1 | h2
          · exact Or.inl h1
          · simp at h2
            exact Or.inr (by simp [h2])
      · exact Or.inr (List.mem_cons_of_mem a hrest)
  rcases haux l [] h with h1 | h2
  · simp at h1
  · exact h2

theorem extractEmails_lc (text : Str) :
    ∀ e ∈ extractEmails text, lcStr e = e := by
  intro e he
  have he2 := mem_dedupFirst _ _ he
  rcases List.mem_map.mp he2 with ⟨x, _, rfl⟩
  exact lcStr_idem x

theorem head?_mem {α} (l : List α) (x : α) (h : l.head? = some x) : x ∈ l := by
  cases l with
  | nil => simp at h
  | cons a rest =>
    rw [List.head?_cons] at h
    injection h with h
    simp [h]

theorem labeledEmailFrom_lc (pats : List (List Str)) (text : Str) (e : Str)
    (h : labeledEmailFrom pats text = some e) : lcStr e = e := by
  induction pats with
  | nil => simp [labeledEmailFrom] at h
  | cons lbls rest ih =>
    unfold labeledEmailFrom at h
    cases hf : findLabeled lbls text with
    | none =>
      rw [hf] at h
      exact ih h
    | some cap =>
      rw [hf] at h
      have h2 : (if isValidEmail cap = true then some (lcStr cap)
          else labeledEmailFrom rest text) = some e := h
      by_cases hv : isValidEmail cap = true
      · rw [if_pos hv] at h2
        injection h2 with h2
        rw [← h2]
        exact lcStr_idem cap
      · rw [if_neg hv] at h2
        exact ih h2

theorem filtered_head_source_lc (text : Str) (keep : Str → Bool) (e : Str)
    (h : ((extractEmails text).filter keep).head? = some e) : lcStr e = e := by
  have hm := head?_mem _ _ h
  exact extractEmails_lc text e (List.mem_of_mem_filter hm)

theorem parseZillowLead_lc (text subject : Str) (c : Candidate)
    (h : parseZillowLead text subject = some c) : lcStr c.email = c.email := by
  unfold parseZillowLead at h
  by_cases hsig : zillowSignature text subject = true
  · rw [if_pos hsig] at h
    cases hl : labeledEmailFrom zillowEmailPats text with
    | some e =>
      rw [hl] at h
      injection h with h
      rw [← h]
      exact labeledEmailFrom_lc _ _ _ hl
    | none =>
      rw [hl] at h
      cases hh : ((extractEmails text).filter zillowKeep).head? with
      | some e =>
        rw [hh] at h
        injection h with h
        rw [← h]
        exact filtered_head_source_lc text zillowKeep e hh
      | none => rw [hh] at h; exact absurd h (by simp)
  · rw [if_neg hsig] at h
    exact absurd h (by simp)

theorem parseRealtorLead_lc (text subject : Str) (c : Candidate)
    (h : parseRealtorLead text subject = some c) : lcStr c.email = c.email := by
  unfold parseRealtorLead at h
  by_cases hsig : realtorSignature text subject = true
  · rw [if_pos hsig] at h
    cases hl : labeledEmailFrom realtorEmailPats text with
    | some e =>
      rw [hl] at h
      injection h with h
      rw [← h]
      exact labeledEmailFrom_lc _ _ _ hl
    | none =>
      rw [hl] at h
      cases hh : ((extractEmails text).filter realtorKeep).head? with
      | some e =>
        rw [hh] at h
        injection h with h
        rw [← h]
        exact filtered_head_source_lc text realtorKeep e hh
      | none => rw [hh] at h; exact absurd h (by simp)
  · rw [if_neg hsig] at h
    exact absurd h (by simp)

theorem parseFacebookLead_lc (text subject : Str) (c : Candidate)
    (h : parseFacebookLead text subject = some c) : lcStr c.email = c.email := by
  unfold parseFacebookLead at h
  by_cases hsig : facebookSignature text subject = true
  · rw [if_pos hsig] at h
    cases hl : labeledEmailFrom facebookEmailPats text with
    | some e =>
      rw [hl] at h
      injection h with h
      rw [← h]
      exact labeledEmailFrom_lc _ _ _ hl
    | none =>
      rw [hl] at h
      cases hh : ((extractEmails text).filter facebookKeep).head? with
      | some e =>
        rw [hh] at h
        injection h with h
        rw [← h]
        exact filtered_head_source_lc text facebookKeep e hh
      | none => rw [hh] at h; exact absurd h (by simp)
  · rw [if_neg hsig] at h
    exact absurd h (by simp)

theorem parseGenericLead_lc (text subject : Str) (c : Candidate)
    (h : parseGenericLead text subject = some c) : lcStr c.email = c.email := by
  unfold parseGenericLead at h
  cases hh : ((extractEmails text).filter genericKeep).head? with
  | some e =>
    rw [hh] at h
    injection h with h
    rw [← h]
    exact filtered_head_source_lc text genericKeep e hh
  | none => rw [hh] at h; exact absurd h (by simp)

theorem chainFirstValid_eq (ps : List (Str → Str → Option Candidate))
    (t s : Str) :
    chainFirstValid ps t s = firstValidCand (ps.map (fun p => p t s)) := by
  induction ps with
  | nil => rfl
  | cons p rest ih =>
    rw [List.map_cons]
    cases hp : p t s with
    | none =>
      have hL : chainFirstValid (p :: rest) t s = chainFirstValid rest t s := by
        simp only [chainFirstValid, hp]
      have hR : firstValidCand (none :: rest.map (fun q => q t s)) =
          firstValidCand (rest.map (fun q => q t s)) := rfl
      rw [hL, hR]
      exact ih
    | some c =>
      have hL : chainFirstValid (p :: rest) t s =
          (if isValidEmail c.email = true then some c
           else chainFirstValid rest t s) := by
        simp only [chainFirstValid, hp]
      have hR : firstValidCand (some c :: rest.map (fun q => q t s)) =
          (if isValidEmail c.email = true then some c
           else firstValidCand (rest.map (fun q => q t s))) := rfl
      rw [hL, hR]
      by_cases hv : isValidEmail c.email = true
      · rw [if_pos hv, if_pos hv]
      · rw [if_neg hv, if_neg hv]
        exact ih

theorem chainFirstValid_none_iff (ps : List (Str → Str → Option Candidate))
    (t s : Str) :
    chainFirstValid ps t s = none ↔
      ∀ p ∈ ps, ∀ c, p t s = some c → isValidEmail c.email = false := by
  induction ps with
  | nil => simp [chainFirstValid]
  | cons p rest ih =>
    cases hp : p t s with
    | none =>
      have hL : chainFirstValid (p :: rest) t s = chainFirstValid rest t s := by
        simp only [chainFirstValid, hp]
      rw [hL, ih]
      constructor
      · intro hall q hq c hc
        rcases List.mem_cons.mp hq with rfl | hq2
        · rw [hp] at hc
          exact absurd hc (by simp)
        · exact hall q hq2 c hc
      · intro hall q hq c hc
        exact hall q (List.mem_cons_of_mem p hq) c hc
    | some c =>
      by_cases hv : isValidEmail c.email = true
      · have hL : chainFirstValid (p :: rest) t s = some c := by
          simp only [chainFirstValid, hp]
          rw [if_pos hv]
        rw [hL]
        constructor
        · intro habs
          exact absurd habs (by simp)
        · intro hall
          have hq := hall p (List.mem_cons_self p rest) c hp
          rw [hv] at hq
          exact absurd hq (by simp)
      · have hL : chainFirstValid (p :: rest) t s = chainFirstValid rest t s := by
          simp only [chainFirstValid, hp]
          rw [if_neg hv]
        rw [hL, ih]
        constructor
        · intro hall q hq c2 hc2
          rcases List.mem_cons.mp hq with rfl | hq2
          · rw [hp] at hc2
            injection hc2 with hc2
            subst hc2
            exact Bool.eq_false_iff.mpr hv
          · exact hall q hq2 c2 hc2
        · intro hall q hq c2 hc2
          exact hall q (List.mem_cons_of_mem p hq) c2 hc2

theorem chainFirstValid_some (ps : List (Str → Str → Option Candidate))
    (t s : Str) (c : Candidate) (h : chainFirstValid ps t s = some c) :
    isValidEmail c.email = true ∧ ∃ p ∈ ps, p t s = some c := by
  induction ps with
  | nil => simp [chainFirstValid] at h
  | cons p rest ih =>
    cases hp : p t s with
    | none =>
      have hL : chainFirstValid (p :: rest) t s = chainFirstValid rest t s := by
        simp only [chainFirstValid, hp]
      rw [hL] at h
      obtain ⟨hv, q, hq, hqc⟩ := ih h
      exact ⟨hv, q, List.mem_cons_of_mem p hq, hqc⟩
    | some c0 =>
      by_cases hv : isValidEmail c0.email = true
      · have hL : chainFirstValid (p :: rest) t s = some c0 := by
          simp only [chainFirstValid, hp]
          rw [if_pos hv]
        rw [hL] at h
        injection h with h
        subst h
        exact ⟨hv, p, List.mem_cons_self p rest, hp⟩
      · have hL : chainFirstValid (p :: rest) t s = chainFirstValid rest t s := by
          simp only [chainFirstValid, hp]
          rw [if_neg hv]
        rw [hL] at h
        obtain ⟨hv2, q, hq, hqc⟩ := ih h
        exact ⟨hv2, q, List.mem_cons_of_mem p hq, hqc⟩

/-- C3.  Recognizer-chain entry point: `parseLeadFromText` returns the
first candidate, in the fixed chain order Zillow, Realtor, Facebook,
generic, whose email passes the validity check; a returned candidate's
email is lower-cased and valid; it throws the no-lead-extractable error
exactly when no recognizer yields a candidate with a valid email; and on
any text with no email-shaped (`local@domain.tld`) substring it throws. -/
theorem C3_recognizer_chain (t s : Str) :
    (parseLeadFromText t s =
      (match firstValidCand [parseZillowLead t s, parseRealtorLead t s,
          parseFacebookLead t s, parseGenericLead t s] with
        | some c => Except.ok c
        | none => Except.error NO_LEAD_MSG)) ∧
    (∀ c, parseLeadFromText t s = .ok c →
      isValidEmail c.email = true ∧ lcStr c.email = c.email) ∧
    (parseLeadFromText t s = .error NO_LEAD_MSG ↔
      ∀ p ∈ parsers, ∀ c, p t s = some c → isValidEmail c.email = false) ∧
    (containsLooseEmail t = false →
      parseLeadFromText t s = .error NO_LEAD_MSG) := by
  refine ⟨?_, ?_, ?_, ?_⟩
  · unfold parseLeadFromText
    rw [chainFirstValid_eq]
    rfl
  · intro c hc
    unfold parseLeadFromText at hc
    cases hcf : chainFirstValid parsers t s with
    | none =>
      rw [hcf] at hc
      exact absurd hc (by simp)
    | some c0 =>
      rw [hcf] at hc
      injection hc with hc
      subst hc
      obtain ⟨hvalid, p, hpmem, hpc⟩ := chainFirstValid_some _ _ _ _ hcf
      refine ⟨hvalid, ?_⟩
      simp only [parsers, List.mem_cons, List.not_mem_nil, or_false] at hpmem
      rcases hpmem with rfl | rfl | rfl | rfl
      · exact parseZillowLead_lc t s _ hpc
      · exact parseRealtorLead_lc t s _ hpc
      · exact parseFacebookLead_lc t s _ hpc
      · exact parseGenericLead_lc t s _ hpc
  · unfold parseLeadFromText
    cases hcf : chainFirstValid parsers t s with
    | none =>
      simp only
      exact iff_of_true trivial ((chainFirstValid_none_iff parsers t s).mp hcf)
    | some c0 =>
      simp only
      constructor
      · intro habs
        exact absurd habs (by simp)
      · intro hall
        have hn := (chainFirstValid_none_iff parsers t s).mpr hall
        rw [hcf] at hn
        exact absurd hn (by simp)
  · intro h
    obtain ⟨hz, hr, hf, hg⟩ := parsers_none_of_no_email t s h
    have hn : chainFirstValid parsers t s = none := by
      apply (chainFirstValid_none_iff parsers t s).mpr
      intro p hp c hc
      simp only [parsers, List.mem_cons, List.not_mem_nil, or_false] at hp
      rcases hp with rfl | rfl | rfl | rfl
      · rw [hz] at hc; exact absurd hc (by simp)
      · rw [hr] at hc; exact absurd hc (by simp)
      · rw [hf] at hc; exact absurd hc (by simp)
      · rw [hg] at hc; exact absurd hc (by simp)
    unfold parseLeadFromText
    rw [hn]

/-- Witness for `C3_recognizer_chain` at a labeled generic text and at a
text with no email shape. -/
theorem C3_recognizer_chain_witness :
    ((parseLeadFromText "Email: a@b.cd".data "".data =
      (match firstValidCand [parseZillowLead "Email: a@b.cd".data "".data,
          parseRealtorLead "Email: a@b.cd".data "".data,
          parseFacebookLead "Email: a@b.cd".data "".data,
          parseGenericLead "Email: a@b.cd".data "".data] with
        | some c => Except.ok c
        | none => Except.error NO_LEAD_MSG)) ∧
    (∀ c, parseLeadFromText "Email: a@b.cd".data "".data = .ok c →
      isValidEmail c.email = true ∧ lcStr c.email = c.email) ∧
    (parseLeadFromText "Email: a@b.cd".data "".data = .error NO_LEAD_MSG ↔
      ∀ p ∈ parsers, ∀ c, p "Email: a@b.cd".data "".data = some c →
        isValidEmail c.email = false) ∧
    (containsLooseEmail "Email: a@b.cd".data = false →
      parseLeadFromText "Email: a@b.cd".data "".data =
        .error NO_LEAD_MSG)) ∧
    (containsLooseEmail "no address here".data = false ∧
      parseLeadFromText "no address here".data "".data =
        .error NO_LEAD_MSG) :=
  ⟨C3_recognizer_chain "Email: a@b.cd".data "".data,
    by decide,
    (C3_recognizer_chain "no address here".data "".data).2.2.2 (by decide)⟩

/-- C4, counterexample: the Zillow recognizer does **not** filter the
generic mailer addresses.  On a signed Zillow message whose only address
is `donotreply@example.com`, the claimed filter would leave no address
and force a no-match, but the recognizer returns that mailer address as
the lead (and the chain accepts it). -/
theorem C4_excluded_filter_counterexample :
    parseZillowLead "Please contact donotreply@example.com now".data
        "zillow".data =
      some ⟨"donotreply@example.com".data, "zillow".data⟩ ∧
    containsSub "donotreply@example.com".data "donotreply".data = true ∧
    parseLeadFromText "Please contact donotreply@example.com now".data
        "zillow".data =
      .ok ⟨"donotreply@example.com".data, "zillow".data⟩ := by
  refine ⟨rfl, by decide, rfl⟩

/-- C4, corrected.  Each recognizer filters the extracted addresses with
its own hard-coded exclusion list — Zillow removes addresses containing
`zillow`/`zillowgroup`, Realtor removes `realtor.com`/`move.com`/
`noreply`, the generic fallback removes the five generic mailer
substrings — and, when no labeled email field matches, the chosen email
is the first extracted address in text order surviving that recognizer's
own filter, with no-match when none survives. -/
theorem C4_excluded_filter_corrected (text subject : Str) :
    (zillowSignature text subject = true →
      labeledEmailFrom zillowEmailPats text = none →
      parseZillowLead text subject =
        (((extractEmails text).filter zillowKeep).head?).map
          (fun e => ⟨e, "zillow".data⟩)) ∧
    (realtorSignature text subject = true →
      labeledEmailFrom realtorEmailPats text = none →
      parseRealtorLead text subject =
        (((extractEmails text).filter realtorKeep).head?).map
          (fun e => ⟨e, "realtor".data⟩)) ∧
    (parseGenericLead text subject =
      (((extractEmails text).filter genericKeep).head?).map
        (fun e => ⟨e, "generic".data⟩)) := by
  refine ⟨?_, ?_, ?_⟩
  · intro hsig hlab
    simp only [parseZillowLead, if_pos hsig, hlab]
    cases hh : ((extractEmails text).filter zillowKeep).head? with
    | some e => rfl
    | none => rfl
  · intro hsig hlab
    simp only [parseRealtorLead, if_pos hsig, hlab]
    cases hh : ((extractEmails text).filter realtorKeep).head? with
    | some e => rfl
    | none => rfl
  · unfold parseGenericLead
    cases hh : ((extractEmails text).filter genericKeep).head? with
    | some e => rfl
    | none => rfl

/-- Witness for `C4_excluded_filter_corrected` on concrete signed texts. -/
theorem C4_excluded_filter_corrected_witness :
    (zillowSignature "see donotreply@example.com".data "zillow".data = true ∧
      labeledEmailFrom zillowEmailPats "see donotreply@example.com".data =
        none ∧
      parseZillowLead "see donotreply@example.com".data "zillow".data =
        (((extractEmails "see donotreply@example.com".data).filter
          zillowKeep).head?).map (fun e => ⟨e, "zillow".data⟩)) ∧
    (realtorSignature "move.com says hi x@y.zz".data "".data = true ∧
      labeledEmailFrom realtorEmailPats "move.com says hi x@y.zz".data =
        none ∧
      parseRealtorLead "move.com says hi x@y.zz".data "".data =
        (((extractEmails "move.com says hi x@y.zz".data).filter
          realtorKeep).head?).map (fun e => ⟨e, "realtor".data⟩)) ∧
    (parseGenericLead "hi from q@r.st".data "".data =
      (((extractEmails "hi from q@r.st".data).filter genericKeep).head?).map
        (fun e => ⟨e, "generic".data⟩)) :=
  ⟨⟨rfl, rfl,
    (C4_excluded_filter_corrected "see donotreply@example.com".data
      "zillow".data).1 rfl rfl⟩,
   ⟨rfl, rfl,
    (C4_excluded_filter_corrected "move.com says hi x@y.zz".data
      "".data).2.1 rfl rfl⟩,
   (C4_excluded_filter_corrected "hi from q@r.st".data "".data).2.2⟩

end EmailRouting
